import Mathlib

/-!
Verification of the tiling / permutation / classification / dispatch /
accumulation pipeline of the sparse-genomics SpMM accelerator
(src/scRNA: csr.hpp, tiler.{hpp,cpp}, permutation.cpp, spmm_baseline.cpp,
tile_spmm.cpp; src/roofline/config/hw_config.h).

Shallow embedding conventions:
* C++ `vector<T>` becomes `List`; flat row-major float buffers become
  `List ℤ` (the claims speak of exact arithmetic, so float values are
  modelled by exact integers; density ratios stay in `ℚ`).
* C++ `int` indices are modelled as `Nat` (all claims concern well-formed
  inputs whose indices are non-negative).
* A function that can `throw std::runtime_error` becomes
  `Except String _`; all other functions are total.
* Nested `for` loops filling a fresh row-major buffer position by
  position are translated to `mkMat rows cols f` where `f i j` is the
  value the loop body stores at `[i*cols + j]`; loops that scatter into
  an existing buffer are translated to folds over the list of performed
  writes (`scatterSet` / `scatterAdd`), preserving the loop's write
  order, so overwrite ("last write wins") and accumulation semantics are
  kept exactly.
* The per-row `std::sort` calls of the source are translated to
  `List.insertionSort` with the very comparator of the source
  (`a.first < b.first`).  `std::sort` leaves the relative order of
  tied elements unspecified; every theorem below that touches a sorted
  row assumes well-formed rows (strictly increasing column indices), on
  which every comparison sort agrees.
-/

/-- `struct CSR` of include/csr.hpp: compressed sparse row matrix.
`indptr` has length `nrows+1`, `indices`/`data` have length `nnz`. -/
structure CSR where
  nrows : Nat
  ncols : Nat
  nnz : Nat
  indptr : List Nat
  indices : List Nat
  data : List ℤ
deriving DecidableEq, Inhabited

/-- `struct Tile` of include/tiler.hpp: one rectangular region of a matrix
(row/col bounds half-open), its nonzero count, and its classification flag. -/
structure Tile where
  row_start : Nat
  row_end : Nat
  col_start : Nat
  col_end : Nat
  nnz : Nat
  is_dense : Bool
deriving DecidableEq, Inhabited

/-- The stored entries `(column, value)` of row `i` of a CSR matrix: the
slice `[indptr[i], indptr[i+1])` of `indices`/`data` (csr.hpp invariant). -/
def csrRow (X : CSR) (i : Nat) : List (Nat × ℤ) :=
  ((X.indices.zip X.data).drop (X.indptr.getD i 0)).take
    (X.indptr.getD (i + 1) 0 - X.indptr.getD i 0)

/-- All stored entries of a CSR matrix as `(row, (column, value))`, in
storage order (the order every `for (i) for (idx)` scan of the source
visits them). -/
def csrEntries (X : CSR) : List (Nat × Nat × ℤ) :=
  (List.range X.nrows).flatMap (fun i => (csrRow X i).map (fun e => (i, e)))

/-- The rows of a CSR matrix as lists of `(column, value)` entries. -/
def rowsOf (X : CSR) : List (List (Nat × ℤ)) :=
  (List.range X.nrows).map (csrRow X)

/-- Assemble a CSR matrix from per-row entry lists: `indptr` is the prefix
sum of the row lengths (the counting pass + prefix sum of the source's
two-pass constructions), `indices`/`data` are the concatenation of the rows
(the scatter pass writes each row contiguously at its `indptr` offset, in
row order).  The `nnz` field is whatever the source assigns to it. -/
def csrFromRows (ncols nnzF : Nat) (rows : List (List (Nat × ℤ))) : CSR :=
  { nrows := rows.length
    ncols := ncols
    nnz := nnzF
    indptr := List.scanl (fun acc r => acc + r.length) 0 rows
    indices := (rows.flatMap id).map Prod.fst
    data := (rows.flatMap id).map Prod.snd }

/-- Per-row sort by column index, with the comparator of the source's
`std::sort` calls (`a.first < b.first`).  `std::sort` is a comparison
sort that leaves ties unspecified; `insertionSort` is one admissible
refinement, and on rows with pairwise distinct columns (the well-formed
case) all refinements coincide. -/
def sortRow (row : List (Nat × ℤ)) : List (Nat × ℤ) :=
  List.insertionSort (fun a b => a.1 < b.1) row

/-- Row-major `rows × cols` buffer whose position `[i*cols + j]` holds
`f i j`: the result of a nested `for (i) for (j)` fill loop. -/
def mkMat {α : Type} (rows cols : Nat) (f : Nat → Nat → α) : List α :=
  (List.range rows).flatMap (fun i => (List.range cols).map (f i))

/-- Overwriting scatter: perform the writes `(position, value)` in order
on a buffer (`buf[p] = v`); out-of-range positions are dropped, matching
the guarded uses below. -/
def scatterSet {α : Type} (buf : List α) (ws : List (Nat × α)) : List α :=
  ws.foldl (fun b w => b.set w.1 w.2) buf

/-- Accumulating scatter: perform the writes `(position, value)` in order
on a buffer (`buf[p] += v`). -/
def scatterAdd (buf : List ℤ) (ws : List (Nat × ℤ)) : List ℤ :=
  ws.foldl (fun b w => b.set w.1 (b.getD w.1 0 + w.2)) buf

/-- Well-formedness of a CSR matrix, exactly the invariant documented in
csr.hpp and §3 of the design: consistent lengths, `indptr` monotone from
`0` to `nnz`, all column indices in range, and each row strictly sorted
by column index (each row enumerates distinct stored nonzeros,
column-sorted). -/
def WF (X : CSR) : Prop :=
  X.indptr.length = X.nrows + 1 ∧
  X.indices.length = X.nnz ∧
  X.data.length = X.nnz ∧
  X.indptr.getD 0 0 = 0 ∧
  (∀ i < X.nrows, X.indptr.getD i 0 ≤ X.indptr.getD (i + 1) 0) ∧
  X.indptr.getD X.nrows 0 = X.nnz ∧
  (∀ i < X.nrows, ∀ e ∈ csrRow X i, e.1 < X.ncols) ∧
  (∀ i < X.nrows, List.Pairwise (fun a b => a.1 < b.1) (csrRow X i))

instance (X : CSR) : Decidable (WF X) :=
  inferInstanceAs (Decidable
    (X.indptr.length = X.nrows + 1 ∧
     X.indices.length = X.nnz ∧
     X.data.length = X.nnz ∧
     X.indptr.getD 0 0 = 0 ∧
     (∀ i < X.nrows, X.indptr.getD i 0 ≤ X.indptr.getD (i + 1) 0) ∧
     X.indptr.getD X.nrows 0 = X.nnz ∧
     (∀ i < X.nrows, ∀ e ∈ csrRow X i, e.1 < X.ncols) ∧
     (∀ i < X.nrows,
       List.Pairwise (fun a b : Nat × ℤ => a.1 < b.1) (csrRow X i))))

attribute [ext] CSR Tile

/-- Total length of a list of rows. -/
def sumLens (rows : List (List (Nat × ℤ))) : Nat := (rows.map List.length).sum

/-! ### permutation.cpp -/

/-- `compute_nnz_per_row` (permutation.cpp): per-row stored-entry counts
`indptr[i+1] - indptr[i]`. -/
def compute_nnz_per_row (X : CSR) : List Nat :=
  (List.range X.nrows).map (fun i => X.indptr.getD (i + 1) 0 - X.indptr.getD i 0)

/-- The comparator `create_row_new2old` hands to `std::sort` in the
descending case (permutation.cpp): it compares the counts only, so it does
not order two indices with equal counts in either direction. -/
def rowCountCmpDesc (nnz_per_row : List Nat) (a b : Nat) : Bool :=
  decide (nnz_per_row.getD b 0 < nnz_per_row.getD a 0)

/-- `create_row_new2old` (permutation.cpp): `std::sort` of `iota(0, n)` with
the count-only comparator (`>` on counts when descending, `<` when
ascending).  `std::sort` is unstable and the comparator does not separate
tied counts, so the source's relative order of equal-count indices is
unspecified; the embedding fixes one admissible comparison sort
(`insertionSort` with the identical comparator).  Every theorem below that
uses the result relies only on its being a permutation of `[0, n)`, which
holds for every admissible `std::sort` outcome. -/
def create_row_new2old (nnz_per_row : List Nat) (descending : Bool) : List Nat :=
  if descending then
    List.insertionSort (fun a b => rowCountCmpDesc nnz_per_row a b)
      (List.range nnz_per_row.length)
  else
    List.insertionSort (fun a b => nnz_per_row.getD a 0 < nnz_per_row.getD b 0)
      (List.range nnz_per_row.length)

/-- `create_col_new2old` (permutation.cpp): same `std::sort` shape as
`create_row_new2old`, over per-column counts. -/
def create_col_new2old (nnz_per_col : List Nat) (descending : Bool) : List Nat :=
  if descending then
    List.insertionSort (fun a b => nnz_per_col.getD b 0 < nnz_per_col.getD a 0)
      (List.range nnz_per_col.length)
  else
    List.insertionSort (fun a b => nnz_per_col.getD a 0 < nnz_per_col.getD b 0)
      (List.range nnz_per_col.length)

/-- `permute_csr_rows` (permutation.cpp): checks ONLY the map length (no
range check on entries).  Counting pass + scatter pass copy the old row
`row_new2old[i_new]` contiguously to new row `i_new` in row order, then each
row is sorted by column (`sortRow`).  An out-of-range entry makes the C++
read `X.indptr[i_old]` and `X.indptr[i_old+1]` out of bounds -- undefined
behavior, no exception raised; the embedding models those unchecked reads
with `getD` default `0`, which yields an empty row. -/
def permute_csr_rows (X : CSR) (row_new2old : List Nat) : Except String CSR :=
  if row_new2old.length ≠ X.nrows then
    .error "permute_csr_rows: row_new2old size mismatch"
  else
    .ok (csrFromRows X.ncols X.nnz
      ((List.range X.nrows).map (fun iNew =>
        sortRow (csrRow X (row_new2old.getD iNew 0)))))

/-- `permute_weight_rows` (permutation.cpp): checks map length, buffer size
and (inside the copy loop) each map entry's range; gathers
`Wp[i_new] = W[row_new2old[i_new]]`. -/
def permute_weight_rows (W : List ℤ) (W_rows W_cols : Nat) (row_new2old : List Nat) :
    Except String (List ℤ) :=
  if row_new2old.length ≠ W_rows then
    .error "permute_weight_rows: row_new2old size mismatch"
  else if W.length ≠ W_rows * W_cols then
    .error "permute_weight_rows: W size mismatch"
  else if row_new2old.any (fun i => W_rows ≤ i) then
    .error "permute_weight_rows: invalid row_new2old entry"
  else
    .ok (mkMat W_rows W_cols (fun iNew j =>
      W.getD (row_new2old.getD iNew 0 * W_cols + j) 0))

/-- `unpermute_csr_rows` (permutation.cpp): checks map length and each
entry's range; a counting pass accumulates each new row's length into its
old position `row_new2old[i_new]`, a prefix sum builds `indptr`, and the
scatter pass (through `write_ptr`) writes each new row's entries, in
`i_new` order, contiguously into its destination block -- so destination
row `i_old` holds the concatenation, in `i_new` order, of the rows mapped
to it; finally each row is sorted by column. -/
def unpermute_csr_rows (X_permuted : CSR) (row_new2old : List Nat) : Except String CSR :=
  if row_new2old.length ≠ X_permuted.nrows then
    .error "unpermute_csr_rows: row_new2old size mismatch"
  else if row_new2old.any (fun i => X_permuted.nrows ≤ i) then
    .error "unpermute_csr_rows: invalid row_new2old entry"
  else
    .ok (csrFromRows X_permuted.ncols X_permuted.nnz
      ((List.range X_permuted.nrows).map (fun iOld =>
        sortRow (((List.range X_permuted.nrows).filter
          (fun iNew => row_new2old.getD iNew 0 == iOld)).flatMap
          (fun iNew => csrRow X_permuted iNew)))))

/-- `unpermute_rows` (permutation.cpp): checks map length, buffer size and
each entry's range; scatters `Y[row_new2old[i_new]] = Y_prime[i_new]` into a
zero-initialized buffer. -/
def unpermute_rows (Y_prime : List ℤ) (Y_rows Y_cols : Nat) (row_new2old : List Nat) :
    Except String (List ℤ) :=
  if row_new2old.length ≠ Y_rows then
    .error "unpermute_rows: row_new2old size mismatch"
  else if Y_prime.length ≠ Y_rows * Y_cols then
    .error "unpermute_rows: Y_prime size mismatch"
  else if row_new2old.any (fun i => Y_rows ≤ i) then
    .error "unpermute_rows: invalid row_new2old entry"
  else
    .ok (scatterSet (List.replicate (Y_rows * Y_cols) 0)
      (mkMat Y_rows Y_cols (fun iNew j =>
        (row_new2old.getD iNew 0 * Y_cols + j, Y_prime.getD (iNew * Y_cols + j) 0))))

/-- The `col_old2new` inversion loop of `permute_csr_cols`
(permutation.cpp): scatter `col_old2new[col_new2old[new_col]] = new_col`
into a `vector<int>(ncols)` (value-initialized to 0); on duplicate map
entries the last write wins, as in the C++ array fill. -/
def col_old2new_of (col_new2old : List Nat) (ncols : Nat) : List Nat :=
  scatterSet (List.replicate ncols 0)
    ((List.range ncols).map (fun newCol => (col_new2old.getD newCol 0, newCol)))

/-- `permute_csr_cols` (permutation.cpp): checks map length and entry
ranges, inverts the map into `col_old2new`, checks every stored column
index, remaps every stored column through `col_old2new`, and re-sorts each
row.  The embedding represents the matrix through its rows; it coincides
with the source's flat-buffer remap on well-formed inputs (where the row
slices tile `indices`/`data` exactly). -/
def permute_csr_cols (X : CSR) (col_new2old : List Nat) : Except String CSR :=
  if col_new2old.length ≠ X.ncols then
    .error "permute_csr_cols: col_new2old size mismatch"
  else if col_new2old.any (fun c => X.ncols ≤ c) then
    .error "permute_csr_cols: invalid col_new2old entry"
  else if X.indices.any (fun c => X.ncols ≤ c) then
    .error "permute_csr_cols: invalid column index in X"
  else
    let col_old2new := col_old2new_of col_new2old X.ncols
    .ok (csrFromRows X.ncols X.nnz
      ((List.range X.nrows).map (fun i =>
        sortRow ((csrRow X i).map (fun e => (col_old2new.getD e.1 0, e.2))))))

/-! ### spmm_baseline.cpp -/

/-- `spmm_baseline` (spmm_baseline.cpp): dimension check, then
`Y[i, j] = sum over stored entries (k, x) of row i of x * W[k, j]`,
accumulated in storage order.  (Thread logging dropped.) -/
def spmm_baseline (X : CSR) (W : List ℤ) (W_rows W_cols : Nat) :
    Except String (List ℤ) :=
  if X.ncols ≠ W_rows then
    .error "Matrix dimension mismatch"
  else
    .ok (mkMat X.nrows W_cols (fun i j =>
      ((csrRow X i).map (fun e => e.2 * W.getD (e.1 * W_cols + j) 0)).sum))

/-! ### tiler.cpp and hw_config.h -/

/-- `hw_config::DENSE_TILE_THRESHOLD` (hw_config.h): 0.05, as an exact
rational. -/
def DENSE_TILE_THRESHOLD : ℚ := 1 / 20

/-- `Tile::density()` (tiler.hpp): `nnz / (rows * cols)`, `0` when either
extent is empty.  The source computes in `double`; the embedding uses exact
rationals. -/
def tileDensity (t : Tile) : ℚ :=
  if t.row_end - t.row_start = 0 ∨ t.col_end - t.col_start = 0 then 0
  else (t.nnz : ℚ) /
    (((t.row_end - t.row_start : Nat) : ℚ) * ((t.col_end - t.col_start : Nat) : ℚ))

/-- The tile grid `make_2d_tiles` allocates before its counting pass
(tiler.cpp): row-major `num_row_tiles × num_col_tiles`, edge tiles clipped
to the matrix bounds, `nnz = 0`, `is_dense = false`. -/
def tileGrid (nrows ncols T_R T_C : Nat) : List Tile :=
  let numRb := (nrows + T_R - 1) / T_R
  let numCb := (ncols + T_C - 1) / T_C
  mkMat numRb numCb (fun rb cb =>
    { row_start := rb * T_R
      row_end := min (rb * T_R + T_R) nrows
      col_start := cb * T_C
      col_end := min (cb * T_C + T_C) ncols
      nnz := 0
      is_dense := false })

/-- `tiles[tile_idx].nnz++` of the counting pass of `make_2d_tiles`. -/
def bumpNnz (ts : List Tile) (k : Nat) : List Tile :=
  ts.set k (let t := ts.getD k default; { t with nnz := t.nnz + 1 })

/-- `make_2d_tiles` (tiler.cpp), with the tile dimensions of the
`TilingConfig` passed directly: build the clipped grid, then scan every
stored nonzero `(i, j)` and increment the `nnz` of tile
`(i / T_R, j / T_C)`, guarded by the source's bounds check.
`ceil(nrows / T_R)` is computed as `(nrows + T_R - 1) / T_R`, which agrees
with the source's double-based ceil on in-range sizes.  (Logging dropped.) -/
def make_2d_tiles (X_prime : CSR) (T_R T_C : Nat) : List Tile :=
  let numRb := (X_prime.nrows + T_R - 1) / T_R
  let numCb := (X_prime.ncols + T_C - 1) / T_C
  (csrEntries X_prime).foldl (fun ts e =>
    let rb := e.1 / T_R
    let cb := e.2.1 / T_C
    if rb < numRb && cb < numCb then bumpNnz ts (rb * numCb + cb) else ts)
    (tileGrid X_prime.nrows X_prime.ncols T_R T_C)

/-- Per-tile body of `predict_tile_density` (tiler.cpp):
`is_dense = (density >= threshold)`. -/
def classifyTile (threshold : ℚ) (t : Tile) : Tile :=
  { t with is_dense := decide (threshold ≤ tileDensity t) }

/-- `predict_tile_density` (tiler.cpp): classify every tile against the
caller-supplied threshold and return the classified tiles together with
the (dense, sparse) counts.  (The C++ mutates the tiles in place and
returns only the counts.) -/
def predict_tile_density (tiles : List Tile) (threshold : ℚ) :
    List Tile × Nat × Nat :=
  ((tiles.map (classifyTile threshold)),
   (tiles.map (classifyTile threshold)).countP (fun t => t.is_dense),
   (tiles.map (classifyTile threshold)).countP (fun t => !t.is_dense))

/-! ### tile_spmm.cpp -/

/-- `extract_tile_csr` (tile_spmm.cpp): two passes keep, for each row of the
tile's row band, the entries whose column lies in `[col_start, col_end)`,
rebased by `col - col_start`; order within a row is preserved (no sort).
`nnz` is the accumulated count. -/
def extract_tile_csr (X : CSR) (tile : Tile) : CSR :=
  let rows := (List.range (tile.row_end - tile.row_start)).map (fun i =>
    ((csrRow X (tile.row_start + i)).filter
      (fun e => tile.col_start ≤ e.1 && e.1 < tile.col_end)).map
      (fun e => (e.1 - tile.col_start, e.2)))
  csrFromRows (tile.col_end - tile.col_start) (sumLens rows) rows

/-- `extract_tile_W` (tile_spmm.cpp): the dense slice
`W[col_start : col_end, :]`, zero-filled for source rows outside
`[0, W_rows)`. -/
def extract_tile_W (W : List ℤ) (W_rows W_cols : Nat) (tile : Tile) : List ℤ :=
  mkMat (tile.col_end - tile.col_start) W_cols (fun i j =>
    if tile.col_start + i < W_rows then W.getD ((tile.col_start + i) * W_cols + j) 0
    else 0)

/-- Last value scattered at column `k` by a row's entries (the write
`X_dense[i*K + k] = val` overwrites in storage order); `0` when the row
stores nothing at `k`. -/
def lastVal (row : List (Nat × ℤ)) (k : Nat) : ℤ :=
  (row.filter (fun e => e.1 == k)).foldl (fun _ e => e.2) 0

/-- `materialize_csr_to_dense` (tile_spmm.cpp): scatter the stored entries
of each row into a zeroed dense `M × K` buffer. -/
def materialize_csr_to_dense (X_tile : CSR) : List ℤ :=
  mkMat X_tile.nrows X_tile.ncols (fun i k => lastVal (csrRow X_tile i) k)

/-- `permute_dense_rows` (tile_spmm.cpp): row gather
`X_permuted[new_row] = X_dense[row_new2old[new_row]]`. -/
def permute_dense_rows (X_dense : List ℤ) (M K : Nat) (row_new2old : List Nat) :
    List ℤ :=
  mkMat M K (fun newRow k => X_dense.getD (row_new2old.getD newRow 0 * K + k) 0)

/-- `permute_dense_cols` (tile_spmm.cpp): column gather
`X_permuted[i, new_col] = X_dense[i, col_new2old[new_col]]`. -/
def permute_dense_cols (X_dense : List ℤ) (M K : Nat) (col_new2old : List Nat) :
    List ℤ :=
  mkMat M K (fun i newCol => X_dense.getD (i * K + col_new2old.getD newCol 0) 0)

/-- `dense_spmm_cpu_tile` (tile_spmm.cpp): naive dense GEMM, each output
cell accumulated over `k` in ascending order. -/
def dense_spmm_cpu_tile (X_dense W_dense : List ℤ) (M K N : Nat) : List ℤ :=
  mkMat M N (fun i j =>
    ((List.range K).map (fun k =>
      X_dense.getD (i * K + k) 0 * W_dense.getD (k * N + j) 0)).sum)

/-- The per-column nonzero count `dense_perm_spmm_tile` computes by
rescanning the row-permuted dense buffer (tile_spmm.cpp): the number of
entries `!= 0` in each column. -/
def dense_nnz_per_col (X_dense : List ℤ) (M K : Nat) : List Nat :=
  (List.range K).map (fun k =>
    ((List.range M).filter (fun i => X_dense.getD (i * K + k) 0 != 0)).length)

/-- Steps (a)-(d) of `dense_perm_spmm_tile` (tile_spmm.cpp) with the two
tile-local permutations as parameters: materialize the tile densely,
permute its rows by `row_new2old`, check the column-permutation length
against `W_tile_rows` (the source's `runtime_error`), permute the tile's
columns and the slice's rows by the same `col_new2old`, multiply densely
(the CPU GEMM; the CUDA branch computes the same product), and un-permute
the result's rows.  `dense_perm_spmm_tile` instantiates the parameters
with the `std::sort`-computed orders; stating this core over arbitrary
permutations covers every order the unstable sort may produce. -/
def dense_perm_spmm_tile_with (X_tile : CSR) (W_tile : List ℤ)
    (W_tile_rows W_cols : Nat) (row_new2old col_new2old : List Nat) :
    Except String (List ℤ) :=
  let M := X_tile.nrows
  let K := X_tile.ncols
  let Xd := materialize_csr_to_dense X_tile
  let Xdr := permute_dense_rows Xd M K row_new2old
  if col_new2old.length ≠ W_tile_rows then
    .error "dense_perm_spmm_tile: column permutation size mismatch"
  else
    match permute_weight_rows W_tile W_tile_rows W_cols col_new2old with
    | .error msg => .error msg
    | .ok Wp =>
      let Xdrc := permute_dense_cols Xdr M K col_new2old
      let Yp := dense_spmm_cpu_tile Xdrc Wp M K W_cols
      unpermute_rows Yp M W_cols row_new2old

/-- `dense_perm_spmm_tile` (tile_spmm.cpp): the tile-local row order comes
from the CSR row counts, the tile-local column order from rescanning the
row-permuted dense buffer, both descending. -/
def dense_perm_spmm_tile (X_tile : CSR) (W_tile : List ℤ)
    (W_tile_rows W_cols : Nat) : Except String (List ℤ) :=
  let row_new2old := create_row_new2old (compute_nnz_per_row X_tile) true
  let Xdr := permute_dense_rows (materialize_csr_to_dense X_tile)
    X_tile.nrows X_tile.ncols row_new2old
  let col_new2old := create_col_new2old
    (dense_nnz_per_col Xdr X_tile.nrows X_tile.ncols) true
  dense_perm_spmm_tile_with X_tile W_tile W_tile_rows W_cols row_new2old col_new2old

/-- `sparse_spmm_tile` (tile_spmm.cpp): the baseline multiply at tile scope,
no permutation, no densification. -/
def sparse_spmm_tile (X_tile : CSR) (W_tile : List ℤ)
    (W_tile_rows W_cols : Nat) : Except String (List ℤ) :=
  spmm_baseline X_tile W_tile W_tile_rows W_cols

/-- The routing predicate of `process_tiles_with_predictor`
(tile_spmm.cpp, the `if` at the top of the per-tile loop):
`tile.density() >= hw_config::DENSE_TILE_THRESHOLD`.  Note it compares the
recomputed density against the hardware constant; it does not consult the
tile's `is_dense` classification flag. -/
def routesDense (t : Tile) : Bool :=
  decide (DENSE_TILE_THRESHOLD ≤ tileDensity t)

/-- The scatter-add of one tile's `M × N` partial result into the global
output (tile_spmm.cpp):
`Y_final[(row_start + i) * Y_cols + j] += Y_tile[i * Y_cols + j]`. -/
def addTileResult (Y : List ℤ) (Y_cols : Nat) (t : Tile) (Y_tile : List ℤ) :
    List ℤ :=
  scatterAdd Y (mkMat (t.row_end - t.row_start) Y_cols (fun i j =>
    ((t.row_start + i) * Y_cols + j, Y_tile.getD (i * Y_cols + j) 0)))

/-- `process_tiles_with_predictor` (tile_spmm.cpp), computation only (the
timing, FLOP/byte counters and log-file rewriting never influence the
numeric result and are dropped): starting from a zeroed
`nrows × W_cols` output, for each tile extract its CSR block and dense
slice, route it dense/sparse by `routesDense`, and scatter-add the tile's
partial result at the tile's row offset. -/
def process_tiles_with_predictor (X_original : CSR) (W_original : List ℤ)
    (W_rows W_cols : Nat) (tiles : List Tile) : Except String (List ℤ) :=
  tiles.foldlM (fun Y tile => do
    let X_tile := extract_tile_csr X_original tile
    let W_tile := extract_tile_W W_original W_rows W_cols tile
    let W_tile_rows := tile.col_end - tile.col_start
    let Y_tile ← if routesDense tile then
        dense_perm_spmm_tile X_tile W_tile W_tile_rows W_cols
      else
        sparse_spmm_tile X_tile W_tile W_tile_rows W_cols
    pure (addTileResult Y W_cols tile Y_tile))
    (List.replicate (X_original.nrows * W_cols) 0)

/-! ### Sorting lemmas for `sortRow` -/

/-! ### Permutation maps -/

/-- `map` is a `new_to_old` permutation map on `[0, n)` (§3 of the design):
right length, entries in range, no duplicates (bijectivity). -/
def IsPermOf (map : List Nat) (n : Nat) : Prop :=
  map.length = n ∧ (∀ m ∈ map, m < n) ∧ map.Nodup

instance (map : List Nat) (n : Nat) : Decidable (IsPermOf map n) :=
  inferInstanceAs (Decidable
    (map.length = n ∧ (∀ m ∈ map, m < n) ∧ map.Nodup))

/-! ### Concrete example data (the 4×4 scenario of §8 of the design) -/

/-- The 4×4 matrix of the spec's scenario: nonzeros (0,0)=1, (0,2)=2,
(1,1)=3, (2,0)=4, (2,2)=5, (3,3)=6. -/
def scenarioX : CSR :=
  { nrows := 4, ncols := 4, nnz := 6,
    indptr := [0, 2, 3, 5, 6], indices := [0, 2, 1, 0, 2, 3],
    data := [1, 2, 3, 4, 5, 6] }

/-- A 4×2 dense matrix used to exercise the multiplies. -/
def scenarioW : List ℤ := [1, 2, 3, 4, 5, 6, 7, 8]

/-- A 1×1 matrix with a single stored nonzero, used for the error-path
analyses. -/
def oneByOneX : CSR :=
  { nrows := 1, ncols := 1, nnz := 1,
    indptr := [0, 1], indices := [0], data := [5] }

/-- The tile at grid position `(rb, cb)` after `make_2d_tiles`: clipped
bounds, `is_dense = false`, and `nnz` counting the scanned entries whose
guarded tile index is this tile's. -/
def tileAt (X : CSR) (T_R T_C rb cb : Nat) : Tile :=
  { row_start := rb * T_R,
    row_end := min (rb * T_R + T_R) X.nrows,
    col_start := cb * T_C,
    col_end := min (cb * T_C + T_C) X.ncols,
    nnz := ((csrEntries X).filter (fun e =>
      (decide (e.1 / T_R < (X.nrows + T_R - 1) / T_R) &&
       decide (e.2.1 / T_C < (X.ncols + T_C - 1) / T_C)) &&
      (e.1 / T_R * ((X.ncols + T_C - 1) / T_C) + e.2.1 / T_C ==
        rb * ((X.ncols + T_C - 1) / T_C) + cb))).length,
    is_dense := false }

/-- The contribution a single tile's scatter-add makes to output position
`p`. -/
def tileContrib (N : Nat) (t : Tile) (v : List ℤ) (p : Nat) : ℤ :=
  (((mkMat (t.row_end - t.row_start) N (fun i j =>
    ((t.row_start + i) * N + j, v.getD (i * N + j) 0))).filter
    (fun w => w.1 == p)).map Prod.snd).sum

/-! ### Claim C1 -/

/-- The value block any routing of a tile computes (`tile_step_value`):
for each row of the tile's row band, the entries of the matching `X` row
whose column lies in the tile's column band, against the matching rows of
`W`. -/
def tileVal (X : CSR) (W : List ℤ) (W_cols : Nat) (t : Tile) : List ℤ :=
  mkMat (t.row_end - t.row_start) W_cols (fun i j =>
    (((csrRow X (t.row_start + i)).filter
      (fun e => t.col_start ≤ e.1 && e.1 < t.col_end)).map
      (fun e => e.2 * W.getD (e.1 * W_cols + j) 0)).sum)

/-- The part of row `g`'s dot product with column `jp` of `W` contributed
by the entries of column band `cb` (clipped at `X.ncols`). -/
def rowBandSum (X : CSR) (W : List ℤ) (W_cols T_C g jp cb : Nat) : ℤ :=
  (((csrRow X g).filter
    (fun e => cb * T_C ≤ e.1 && e.1 < min (cb * T_C + T_C) X.ncols)).map
    (fun e => e.2 * W.getD (e.1 * W_cols + jp) 0)).sum

/-- The sortedness component of `WF`, in `Chain'` form (equivalent to the
`Pairwise` form since `<` on the keys is transitive). -/
theorem wf_rows_chain' {X : CSR} (hwf : WF X) :
    ∀ i < X.nrows, List.Chain' (fun a b : Nat × ℤ => a.1 < b.1) (csrRow X i) := by
  haveI : IsTrans (Nat × ℤ) (fun a b => a.1 < b.1) :=
    ⟨fun _ _ _ hab hbc => lt_trans hab hbc⟩
  intro i hi
  exact List.chain'_iff_pairwise.mpr (hwf.2.2.2.2.2.2.2 i hi)

/-! ### Basic lemmas about the helpers -/

theorem mkMat_length {α : Type} (rows cols : Nat) (f : Nat → Nat → α) :
    (mkMat rows cols f).length = rows * cols := by
  induction rows with
  | zero => simp [mkMat]
  | succ n ih =>
    simp only [mkMat, List.range_succ, List.flatMap_append, List.length_append] at *
    simp [ih, Nat.succ_mul]

theorem mkMat_succ {α : Type} (n cols : Nat) (f : Nat → Nat → α) :
    mkMat (n + 1) cols f = mkMat n cols f ++ (List.range cols).map (f n) := by
  simp [mkMat, List.range_succ]

theorem mkMat_getD {α : Type} {rows cols i j : Nat} (f : Nat → Nat → α) (d : α)
    (hi : i < rows) (hj : j < cols) :
    (mkMat rows cols f).getD (i * cols + j) d = f i j := by
  induction rows with
  | zero => omega
  | succ n ih =>
    rw [mkMat_succ]
    rcases Nat.lt_succ_iff_lt_or_eq.mp hi with h | h
    · have hlen : i * cols + j < (mkMat n cols f).length := by
        rw [mkMat_length]
        calc i * cols + j < i * cols + cols := by omega
        _ = (i + 1) * cols := by ring
        _ ≤ n * cols := Nat.mul_le_mul_right cols h
      have hlen2 : i * cols + j < (mkMat n cols f ++ (List.range cols).map (f n)).length := by
        rw [List.length_append]
        exact Nat.lt_of_lt_of_le hlen (Nat.le_add_right _ _)
      rw [List.getD_eq_getElem _ _ hlen2, List.getElem_append, dif_pos hlen,
        ← List.getD_eq_getElem _ d hlen]
      exact ih h
    · subst h
      have hlen : i * cols + j < (mkMat i cols f ++ (List.range cols).map (f i)).length := by
        rw [List.length_append, mkMat_length, List.length_map, List.length_range]
        omega
      rw [List.getD_eq_getElem _ _ hlen, List.getElem_append]
      have hnot : ¬ (i * cols + j < (mkMat i cols f).length) := by
        rw [mkMat_length]; omega
      rw [dif_neg hnot]
      have harith : i * cols + j - (mkMat i cols f).length = j := by
        rw [mkMat_length]; omega
      simp only [harith, List.getElem_map, List.getElem_range]

theorem scatterSet_length {α : Type} (buf : List α) (ws : List (Nat × α)) :
    (scatterSet buf ws).length = buf.length := by
  induction ws generalizing buf with
  | nil => rfl
  | cons w ws ih => simp [scatterSet, List.foldl_cons] at *; rw [ih, List.length_set]

theorem scatterSet_getD {α : Type} (buf : List α) (ws : List (Nat × α)) (p : Nat) (d : α)
    (hp : p < buf.length) :
    (scatterSet buf ws).getD p d =
      (ws.filter (fun w => w.1 == p)).foldl (fun _ w => w.2) (buf.getD p d) := by
  induction ws generalizing buf with
  | nil => rfl
  | cons w ws ih =>
    simp only [scatterSet, List.foldl_cons] at *
    rw [ih (buf.set w.1 w.2) (by rwa [List.length_set])]
    by_cases h : w.1 = p
    · subst h
      rw [List.filter_cons_of_pos (by simp)]
      simp only [List.foldl_cons]
      congr 1
      rw [List.getD_eq_getElem _ _ (by rwa [List.length_set]), List.getElem_set, if_pos rfl]
    · rw [List.filter_cons_of_neg (by simpa using h)]
      congr 1
      rw [List.getD_eq_getElem _ _ (by rwa [List.length_set]),
        List.getD_eq_getElem _ _ hp, List.getElem_set, if_neg h]

theorem scatterAdd_length (buf : List ℤ) (ws : List (Nat × ℤ)) :
    (scatterAdd buf ws).length = buf.length := by
  induction ws generalizing buf with
  | nil => rfl
  | cons w ws ih => simp [scatterAdd, List.foldl_cons] at *; rw [ih, List.length_set]

theorem scatterAdd_getD (buf : List ℤ) (ws : List (Nat × ℤ)) (p : Nat)
    (hp : p < buf.length) :
    (scatterAdd buf ws).getD p 0 =
      buf.getD p 0 + ((ws.filter (fun w => w.1 == p)).map Prod.snd).sum := by
  induction ws generalizing buf with
  | nil => simp [scatterAdd]
  | cons w ws ih =>
    simp only [scatterAdd, List.foldl_cons] at *
    rw [ih (buf.set w.1 (buf.getD w.1 0 + w.2)) (by rwa [List.length_set])]
    by_cases h : w.1 = p
    · subst h
      rw [List.filter_cons_of_pos (by simp)]
      simp only [List.map_cons, List.sum_cons]
      have : (buf.set w.1 (buf.getD w.1 0 + w.2)).getD w.1 0 = buf.getD w.1 0 + w.2 := by
        rw [List.getD_eq_getElem _ _ (by rwa [List.length_set]), List.getElem_set, if_pos rfl]
      rw [this]; ring
    · rw [List.filter_cons_of_neg (by simpa using h)]
      have hkeep : (buf.set w.1 (buf.getD w.1 0 + w.2)).getD p 0 = buf.getD p 0 := by
        rw [List.getD_eq_getElem _ _ (by rwa [List.length_set]),
          List.getD_eq_getElem _ _ hp, List.getElem_set, if_neg h]
      rw [hkeep]

/-- A filter that exactly one element of a duplicate-free list satisfies
returns that element alone. -/
theorem filter_unique {α : Type} {l : List α} (hnd : l.Nodup) (a : α) (ha : a ∈ l)
    (p : α → Bool) (hpa : p a = true) (huniq : ∀ b ∈ l, p b = true → b = a) :
    l.filter p = [a] := by
  induction l with
  | nil => cases ha
  | cons x xs ih =>
    rcases List.mem_cons.mp ha with h | h
    · subst h
      rw [List.filter_cons_of_pos hpa]
      have : xs.filter p = [] := by
        rw [List.filter_eq_nil_iff]
        intro b hb hpb
        have := huniq b (List.mem_cons_of_mem _ hb) hpb
        subst this
        exact absurd hb (List.nodup_cons.mp hnd).1
      rw [this]
    · have hxa : x ≠ a := by
        intro hx; subst hx; exact (List.nodup_cons.mp hnd).1 h
      have hpx : p x = false := by
        by_contra hc
        exact hxa (huniq x (List.mem_cons_self _ _) (by simpa using hc))
      rw [List.filter_cons_of_neg (by simp [hpx])]
      exact ih (List.nodup_cons.mp hnd).2 h
        (fun b hb hpb => huniq b (List.mem_cons_of_mem _ hb) hpb)

/-- A flatMap over a duplicate-free list where every element but one
produces `[]` equals that one element's output. -/
theorem flatMap_single {α β : Type} {l : List α} (hnd : l.Nodup) (a : α) (ha : a ∈ l)
    (f : α → List β) (hother : ∀ b ∈ l, b ≠ a → f b = []) :
    l.flatMap f = f a := by
  induction l with
  | nil => cases ha
  | cons x xs ih =>
    rw [List.flatMap_cons]
    rcases List.mem_cons.mp ha with h | h
    · subst h
      have : xs.flatMap f = [] := by
        rw [List.flatMap_eq_nil_iff]
        intro b hb
        refine hother b (List.mem_cons_of_mem _ hb) ?_
        intro hba; subst hba
        exact (List.nodup_cons.mp hnd).1 hb
      rw [this, List.append_nil]
    · have hxa : x ≠ a := by
        intro hx; subst hx; exact (List.nodup_cons.mp hnd).1 h
      rw [hother x (List.mem_cons_self _ _) hxa, List.nil_append]
      exact ih (List.nodup_cons.mp hnd).2 h
        (fun b hb hba => hother b (List.mem_cons_of_mem _ hb) hba)

theorem filter_flatMap {α β : Type} (l : List α) (f : α → List β) (p : β → Bool) :
    (l.flatMap f).filter p = l.flatMap (fun x => (f x).filter p) := by
  induction l with
  | nil => rfl
  | cons x xs ih => simp [List.flatMap_cons, List.filter_append, ih]

/-- Rewriting an index loop `for i in [0,n): use l[i]` as a map over `l`. -/
theorem range_map_getD {α β : Type} (l : List α) (d : α) (g : α → β) :
    (List.range l.length).map (fun k => g (l.getD k d)) = l.map g := by
  apply List.ext_getElem
  · simp
  · intro n h1 h2
    simp only [List.getElem_map, List.getElem_range]
    congr 1
    exact List.getD_eq_getElem l d (by simpa using h2)

/-- Sum of `f` over `List.range n` as a `Finset` sum. -/
theorem sum_map_range {M : Type} [AddCommMonoid M] (n : Nat) (f : Nat → M) :
    ((List.range n).map f).sum = ∑ k ∈ Finset.range n, f k := by
  induction n with
  | zero => simp
  | succ m ih => rw [List.range_succ, List.map_append, List.sum_append,
      Finset.sum_range_succ, ih]; simp

theorem scanl_lens_getD (rows : List (List (Nat × ℤ))) (init : Nat) :
    ∀ i ≤ rows.length,
      (List.scanl (fun acc r => acc + r.length) init rows).getD i 0 =
        init + sumLens (rows.take i) := by
  induction rows generalizing init with
  | nil =>
    intro i hi
    have hz : i = 0 := by simpa using hi
    subst hz
    simp [sumLens]
  | cons r rs ih =>
    intro i hi
    cases i with
    | zero => simp [sumLens]
    | succ k =>
      rw [List.scanl_cons, List.singleton_append, List.getD_cons_succ,
        ih (init + r.length) k (by simpa using hi), List.take_succ_cons]
      simp [sumLens]
      ring

theorem flatMap_id_drop (rows : List (List (Nat × ℤ))) :
    ∀ i, (rows.flatMap id).drop (sumLens (rows.take i)) = (rows.drop i).flatMap id := by
  intro i
  induction i generalizing rows with
  | zero => simp [sumLens]
  | succ k ih =>
    cases rows with
    | nil => simp [sumLens]
    | cons r rs =>
      simp only [List.take_succ_cons, List.drop_succ_cons, List.flatMap_cons, id]
      have : sumLens (r :: rs.take k) = r.length + sumLens (rs.take k) := by
        simp [sumLens]
      rw [this, ← List.drop_drop, List.drop_left]
      exact ih rs

theorem zip_fst_snd (l : List (Nat × ℤ)) :
    (l.map Prod.fst).zip (l.map Prod.snd) = l := by
  induction l with
  | nil => rfl
  | cons x xs ih => simp [ih]

theorem csrFromRows_nrows (c z : Nat) (rows : List (List (Nat × ℤ))) :
    (csrFromRows c z rows).nrows = rows.length := rfl

theorem csrFromRows_indptr_getD (c z : Nat) (rows : List (List (Nat × ℤ)))
    {i : Nat} (hi : i ≤ rows.length) :
    (csrFromRows c z rows).indptr.getD i 0 = sumLens (rows.take i) := by
  simpa using scanl_lens_getD rows 0 i hi

theorem csrRow_csrFromRows (c z : Nat) (rows : List (List (Nat × ℤ)))
    {i : Nat} (hi : i < rows.length) :
    csrRow (csrFromRows c z rows) i = rows.getD i [] := by
  unfold csrRow
  have hzip : ((csrFromRows c z rows).indices.zip (csrFromRows c z rows).data) =
      rows.flatMap id := by
    show ((rows.flatMap id).map Prod.fst).zip ((rows.flatMap id).map Prod.snd) =
      rows.flatMap id
    exact zip_fst_snd _
  rw [hzip, csrFromRows_indptr_getD c z rows (Nat.le_of_lt hi),
    csrFromRows_indptr_getD c z rows hi, flatMap_id_drop rows i]
  have hdrop : rows.drop i = rows.getD i [] :: rows.drop (i + 1) := by
    rw [List.getD_eq_getElem _ _ hi]
    exact (List.drop_eq_getElem_cons hi)
  rw [hdrop]
  have htake : sumLens (rows.take (i + 1)) - sumLens (rows.take i) =
      (rows.getD i []).length := by
    have : rows.take (i + 1) = rows.take i ++ [rows.getD i []] := by
      rw [List.getD_eq_getElem _ _ hi, ← List.take_concat_get rows i hi,
        List.concat_eq_append]
    rw [this]
    simp [sumLens]
  rw [htake]
  simp only [List.flatMap_cons, id]
  exact List.take_left _ _

/-! ### Facts derivable from well-formedness -/

theorem wf_zip_length {X : CSR} (hwf : WF X) :
    (X.indices.zip X.data).length = X.nnz := by
  obtain ⟨-, h2, h3, -⟩ := hwf
  rw [List.length_zip, h2, h3]
  exact Nat.min_self _

theorem wf_indptr_mono {X : CSR} (hwf : WF X) :
    ∀ j ≤ X.nrows, ∀ i ≤ j, X.indptr.getD i 0 ≤ X.indptr.getD j 0 := by
  obtain ⟨-, -, -, -, h5, -⟩ := hwf
  intro j
  induction j with
  | zero =>
    intro _ i hi
    have : i = 0 := Nat.le_zero.mp hi
    subst this
    exact Nat.le_refl _
  | succ k ih =>
    intro hk i hi
    rcases Nat.le_succ_iff.mp hi with h | h
    · exact Nat.le_trans (ih (by omega) i h) (h5 k (by omega))
    · subst h
      exact Nat.le_refl _

theorem wf_csrRow_length {X : CSR} (hwf : WF X) {i : Nat} (hi : i < X.nrows) :
    (csrRow X i).length = X.indptr.getD (i + 1) 0 - X.indptr.getD i 0 := by
  have hle : X.indptr.getD (i + 1) 0 ≤ X.nnz := by
    have := wf_indptr_mono hwf X.nrows (Nat.le_refl _) (i + 1) (by omega)
    rwa [hwf.2.2.2.2.2.1] at this
  unfold csrRow
  rw [List.length_take, List.length_drop, wf_zip_length hwf]
  omega

theorem wf_flatten_aux {X : CSR} (hwf : WF X) :
    ∀ m k, k + m = X.nrows →
      ((List.range' k m).map (csrRow X)).flatMap id =
        (X.indices.zip X.data).drop (X.indptr.getD k 0) := by
  intro m
  induction m with
  | zero =>
    intro k hk
    have : k = X.nrows := by omega
    subst this
    rw [hwf.2.2.2.2.2.1]
    exact ((List.drop_eq_nil_of_le (by rw [wf_zip_length hwf])).symm)
  | succ n ih =>
    intro k hk
    rw [List.range'_succ, List.map_cons, List.flatMap_cons, id, ih (k + 1) (by omega)]
    have hmono := hwf.2.2.2.2.1 k (by omega)
    have harith : X.indptr.getD (k + 1) 0 =
        X.indptr.getD k 0 + (X.indptr.getD (k + 1) 0 - X.indptr.getD k 0) := by omega
    rw [harith, ← List.drop_drop]
    unfold csrRow
    exact List.take_append_drop _ _

theorem wf_flatten {X : CSR} (hwf : WF X) :
    (rowsOf X).flatMap id = X.indices.zip X.data := by
  unfold rowsOf
  rw [List.range_eq_range', wf_flatten_aux hwf X.nrows 0 (by omega), hwf.2.2.2.1,
    List.drop_zero]

theorem wf_sumLens_take {X : CSR} (hwf : WF X) :
    ∀ n ≤ X.nrows, sumLens ((rowsOf X).take n) = X.indptr.getD n 0 := by
  intro n
  induction n with
  | zero =>
    intro _
    rw [hwf.2.2.2.1]
    simp [sumLens]
  | succ k ih =>
    intro hk
    have hklt : k < (rowsOf X).length := by
      unfold rowsOf
      rw [List.length_map, List.length_range]
      omega
    have hrk : (rowsOf X)[k] = csrRow X k := by
      unfold rowsOf
      simp
    have happ : ∀ (l : List (List (Nat × ℤ))) (r : List (Nat × ℤ)),
        sumLens (l ++ [r]) = sumLens l + r.length := by
      intro l r
      unfold sumLens
      rw [List.map_append, List.sum_append]
      simp
    rw [← List.take_concat_get _ _ hklt, List.concat_eq_append, happ,
      ih (by omega), hrk, wf_csrRow_length hwf (by omega)]
    have := hwf.2.2.2.2.1 k (by omega)
    omega

/-- A well-formed CSR matrix is recomposed exactly from its rows. -/
theorem csrFromRows_rowsOf {X : CSR} (hwf : WF X) :
    csrFromRows X.ncols X.nnz (rowsOf X) = X := by
  have hlenr : (rowsOf X).length = X.nrows := by
    unfold rowsOf
    rw [List.length_map, List.length_range]
  have hflat := wf_flatten hwf
  ext1
  · exact hlenr
  · rfl
  · rfl
  · apply List.ext_getElem
    · show (List.scanl _ 0 (rowsOf X)).length = X.indptr.length
      rw [List.length_scanl, hlenr, hwf.1]
    · intro n h1 h2
      have hn : n ≤ (rowsOf X).length := by
        have h1' : n < (List.scanl (fun acc r => acc + r.length) 0 (rowsOf X)).length := h1
        rw [List.length_scanl] at h1'
        omega
      have := csrFromRows_indptr_getD X.ncols X.nnz (rowsOf X) hn
      rw [List.getD_eq_getElem _ _ h1] at this
      rw [this, wf_sumLens_take hwf n (by omega), List.getD_eq_getElem _ _ h2]
  · show ((rowsOf X).flatMap id).map Prod.fst = X.indices
    rw [hflat]
    exact List.map_fst_zip _ _ (by rw [hwf.2.1, hwf.2.2.1])
  · show ((rowsOf X).flatMap id).map Prod.snd = X.data
    rw [hflat]
    exact List.map_snd_zip _ _ (by rw [hwf.2.1, hwf.2.2.1])

theorem sortRow_perm (row : List (Nat × ℤ)) : (sortRow row).Perm row :=
  List.perm_insertionSort _ row

theorem sortRow_eq_self {row : List (Nat × ℤ)}
    (h : List.Chain' (fun a b => a.1 < b.1) row) : sortRow row = row := by
  haveI : IsTrans (Nat × ℤ) (fun a b => a.1 < b.1) :=
    ⟨fun _ _ _ hab hbc => lt_trans hab hbc⟩
  exact List.Sorted.insertionSort_eq (List.chain'_iff_pairwise.mp h)

theorem chain'_keys_nodup {row : List (Nat × ℤ)}
    (h : List.Chain' (fun a b => a.1 < b.1) row) : (row.map Prod.fst).Nodup := by
  haveI : IsTrans (Nat × ℤ) (fun a b => a.1 < b.1) :=
    ⟨fun _ _ _ hab hbc => lt_trans hab hbc⟩
  have hp := List.chain'_iff_pairwise.mp h
  have : List.Pairwise (fun a b : Nat => a < b) (row.map Prod.fst) :=
    List.pairwise_map.mpr hp
  exact this.imp (fun hab => Nat.ne_of_lt hab)

theorem orderedInsert_chain' (a : Nat × ℤ) :
    ∀ (l : List (Nat × ℤ)), List.Chain' (fun x y => x.1 < y.1) l →
      (∀ b ∈ l, b.1 ≠ a.1) →
      List.Chain' (fun x y => x.1 < y.1)
        (List.orderedInsert (fun x y => x.1 < y.1) a l) := by
  intro l
  induction l with
  | nil => intro _ _; simp
  | cons b bs ih =>
    intro hl hna
    simp only [List.orderedInsert]
    split
    · exact List.Chain'.cons (by assumption) hl
    · have hba : b.1 < a.1 := by
        have hne := hna b (List.mem_cons_self _ _)
        omega
      have htail : List.Chain' (fun x y => x.1 < y.1)
          (List.orderedInsert (fun x y => x.1 < y.1) a bs) :=
        ih hl.tail (fun c hc => hna c (List.mem_cons_of_mem _ hc))
      apply List.chain'_cons'.mpr
      refine ⟨?_, htail⟩
      intro y hy
      cases bs with
      | nil =>
        simp only [List.orderedInsert, List.head?_cons, Option.mem_def,
          Option.some.injEq] at hy
        subst hy
        exact hba
      | cons c cs =>
        simp only [List.orderedInsert] at hy
        by_cases hac : a.1 < c.1
        · rw [if_pos hac] at hy
          simp only [List.head?_cons, Option.mem_def, Option.some.injEq] at hy
          subst hy
          exact hba
        · rw [if_neg hac] at hy
          simp only [List.head?_cons, Option.mem_def, Option.some.injEq] at hy
          subst hy
          exact (List.chain'_cons.mp hl).1

theorem sortRow_chain' {row : List (Nat × ℤ)}
    (hnd : (row.map Prod.fst).Nodup) :
    List.Chain' (fun a b => a.1 < b.1) (sortRow row) := by
  induction row with
  | nil => simp [sortRow, List.insertionSort]
  | cons x xs ih =>
    have hnd' : (xs.map Prod.fst).Nodup := (List.nodup_cons.mp hnd).2
    have hxs : x.1 ∉ xs.map Prod.fst := (List.nodup_cons.mp hnd).1
    show List.Chain' _ (List.orderedInsert _ x (List.insertionSort _ xs))
    apply orderedInsert_chain' x _ (ih hnd')
    intro b hb
    have hbmem : b ∈ xs := (List.perm_insertionSort _ xs).mem_iff.mp hb
    intro hbx
    exact hxs (hbx ▸ List.mem_map_of_mem Prod.fst hbmem)

theorem IsPermOf.perm_range {map : List Nat} {n : Nat} (h : IsPermOf map n) :
    map.Perm (List.range n) := by
  obtain ⟨hlen, hmem, hnd⟩ := h
  apply List.Subperm.perm_of_length_le
  · exact List.subperm_of_subset hnd (fun m hm => List.mem_range.mpr (hmem m hm))
  · rw [hlen, List.length_range]

theorem isPermOf_of_perm_range {map : List Nat} {n : Nat}
    (h : map.Perm (List.range n)) : IsPermOf map n := by
  refine ⟨by rw [h.length_eq, List.length_range], ?_, ?_⟩
  · intro m hm
    exact List.mem_range.mp (h.mem_iff.mp hm)
  · exact h.nodup_iff.mpr (List.nodup_range n)

theorem IsPermOf.getD_lt {map : List Nat} {n : Nat} (h : IsPermOf map n)
    {i : Nat} (hi : i < n) : map.getD i 0 < n := by
  have hil : i < map.length := by rw [h.1]; exact hi
  rw [List.getD_eq_getElem _ _ hil]
  exact h.2.1 _ (List.getElem_mem hil)

theorem IsPermOf.getD_inj {map : List Nat} {n : Nat} (h : IsPermOf map n)
    {i j : Nat} (hi : i < n) (hj : j < n)
    (heq : map.getD i 0 = map.getD j 0) : i = j := by
  have hil : i < map.length := by rw [h.1]; exact hi
  have hjl : j < map.length := by rw [h.1]; exact hj
  rw [List.getD_eq_getElem _ _ hil, List.getD_eq_getElem _ _ hjl] at heq
  exact (h.2.2.getElem_inj_iff).mp heq

theorem IsPermOf.exists_preimage {map : List Nat} {n : Nat} (h : IsPermOf map n)
    {iOld : Nat} (hio : iOld < n) :
    ∃ iNew, iNew < n ∧ map.getD iNew 0 = iOld := by
  have : iOld ∈ map := h.perm_range.mem_iff.mpr (List.mem_range.mpr hio)
  obtain ⟨k, hk, hkv⟩ := List.getElem_of_mem this
  exact ⟨k, by rw [← h.1]; exact hk, by rw [List.getD_eq_getElem _ _ hk]; exact hkv⟩

/-- Under a permutation map, the index loop `for i_new: if map[i_new] == i_old`
fires exactly once, at the unique preimage. -/
theorem IsPermOf.filter_preimage {map : List Nat} {n : Nat} (h : IsPermOf map n)
    {iOld : Nat} (hio : iOld < n) :
    ∃ iNew, iNew < n ∧ map.getD iNew 0 = iOld ∧
      (List.range n).filter (fun i => map.getD i 0 == iOld) = [iNew] := by
  obtain ⟨iNew, hlt, hval⟩ := h.exists_preimage hio
  refine ⟨iNew, hlt, hval, ?_⟩
  apply filter_unique (List.nodup_range n) iNew (List.mem_range.mpr hlt)
  · simpa using hval
  · intro b hb hpb
    refine h.getD_inj (List.mem_range.mp hb) hlt ?_
    rw [hval]
    simpa using hpb

theorem isPermOf_create_row_new2old (counts : List Nat) (b : Bool) :
    IsPermOf (create_row_new2old counts b) counts.length := by
  apply isPermOf_of_perm_range
  unfold create_row_new2old
  cases b <;> simp <;> exact List.perm_insertionSort _ _

theorem isPermOf_create_col_new2old (counts : List Nat) (b : Bool) :
    IsPermOf (create_col_new2old counts b) counts.length := by
  apply isPermOf_of_perm_range
  unfold create_col_new2old
  cases b <;> simp <;> exact List.perm_insertionSort _ _

/-! ### Sum helpers -/

theorem sumLens_append (a b : List (List (Nat × ℤ))) :
    sumLens (a ++ b) = sumLens a + sumLens b := by
  unfold sumLens
  rw [List.map_append, List.sum_append]

theorem sumLens_take_le (rows : List (List (Nat × ℤ))) (i : Nat) :
    sumLens (rows.take i) ≤ sumLens (rows.take (i + 1)) := by
  rcases Nat.lt_or_ge i rows.length with h | h
  · rw [← List.take_concat_get rows i h, List.concat_eq_append, sumLens_append]
    omega
  · rw [List.take_of_length_le h, List.take_of_length_le (by omega)]

/-- Reindexing a sum over `[0, n)` through a permutation map leaves it
unchanged. -/
theorem sum_getD_perm {M : Type} [AddCommMonoid M] {map : List Nat} {n : Nat}
    (h : IsPermOf map n) (g : Nat → M) :
    ((List.range n).map (fun i => g (map.getD i 0))).sum =
      ((List.range n).map g).sum := by
  have h1 : (List.range n).map (fun i => g (map.getD i 0)) = map.map g := by
    rw [← h.1]
    exact range_map_getD map 0 g
  rw [h1]
  exact (h.perm_range.map g).sum_eq

/-- Partitioning a list by a key in `[0, nKeys)` and summing the parts gives
the total sum. -/
theorem sum_partition {α M : Type} [AddCommMonoid M] (l : List α) (nKeys : Nat)
    (keyOf : α → Nat) (g : α → M) (hkey : ∀ e ∈ l, keyOf e < nKeys) :
    ((List.range nKeys).map
      (fun k => ((l.filter (fun e => keyOf e == k)).map g).sum)).sum =
      (l.map g).sum := by
  induction l with
  | nil => simp
  | cons x xs ih =>
    have hx : keyOf x < nKeys := hkey x (List.mem_cons_self _ _)
    have hxs : ∀ e ∈ xs, keyOf e < nKeys :=
      fun e he => hkey e (List.mem_cons_of_mem _ he)
    have hsplit : ∀ k : Nat,
        (((x :: xs).filter (fun e => keyOf e == k)).map g).sum =
          (if keyOf x = k then g x else 0) +
            ((xs.filter (fun e => keyOf e == k)).map g).sum := by
      intro k
      by_cases hk : keyOf x = k
      · rw [List.filter_cons_of_pos (by simpa using hk), List.map_cons,
          List.sum_cons, if_pos hk]
      · rw [List.filter_cons_of_neg (by simpa using hk), if_neg hk, zero_add]
    calc ((List.range nKeys).map
        (fun k => (((x :: xs).filter (fun e => keyOf e == k)).map g).sum)).sum
        = ∑ k ∈ Finset.range nKeys,
            ((if keyOf x = k then g x else 0) +
              ((xs.filter (fun e => keyOf e == k)).map g).sum) := by
          rw [← sum_map_range]
          congr 1
          exact List.map_congr_left (fun k _ => hsplit k)
      _ = (∑ k ∈ Finset.range nKeys, if keyOf x = k then g x else 0) +
            ∑ k ∈ Finset.range nKeys,
              ((xs.filter (fun e => keyOf e == k)).map g).sum := by
          rw [Finset.sum_add_distrib]
      _ = g x + (xs.map g).sum := by
          congr 1
          · rw [Finset.sum_ite_eq]
            simp [Finset.mem_range.mpr hx]
          · rw [← ih hxs, sum_map_range]
      _ = ((x :: xs).map g).sum := by rw [List.map_cons, List.sum_cons]

/-! ### Well-formedness of assembled matrices -/

theorem getD_map_range {α : Type} (n : Nat) (f : Nat → α) (d : α) {i : Nat}
    (hi : i < n) : ((List.range n).map f).getD i d = f i := by
  rw [List.getD_eq_getElem _ _ (by simpa using hi)]
  simp

theorem sortRow_length (row : List (Nat × ℤ)) :
    (sortRow row).length = row.length :=
  List.length_insertionSort _ row

theorem wf_sumLens_rowsOf {X : CSR} (hwf : WF X) :
    sumLens (rowsOf X) = X.nnz := by
  have h := wf_sumLens_take hwf X.nrows (Nat.le_refl _)
  have hlen : (rowsOf X).length = X.nrows := by
    unfold rowsOf
    rw [List.length_map, List.length_range]
  have htake : (rowsOf X).take X.nrows = rowsOf X :=
    List.take_of_length_le (by omega)
  rw [htake] at h
  rw [h, hwf.2.2.2.2.2.1]

theorem wf_indices_lt {X : CSR} (hwf : WF X) :
    ∀ c ∈ X.indices, c < X.ncols := by
  intro c hc
  have hidx : X.indices = ((rowsOf X).flatMap id).map Prod.fst := by
    rw [wf_flatten hwf]
    exact (List.map_fst_zip _ _ (by rw [hwf.2.1, hwf.2.2.1])).symm
  rw [hidx] at hc
  obtain ⟨e, he, hec⟩ := List.mem_map.mp hc
  obtain ⟨r, hr, her⟩ := List.mem_flatMap.mp he
  unfold rowsOf at hr
  obtain ⟨i, hi, hri⟩ := List.mem_map.mp hr
  subst hri
  subst hec
  exact hwf.2.2.2.2.2.2.1 i (List.mem_range.mp hi) e (by simpa using her)

/-- `csrFromRows` produces a well-formed matrix whenever the `nnz` field
matches the total entry count and the rows have in-range, strictly
increasing columns. -/
theorem wf_csrFromRows (c z : Nat) (rows : List (List (Nat × ℤ)))
    (hz : z = sumLens rows)
    (hc : ∀ r ∈ rows, ∀ e ∈ r, e.1 < c)
    (hs : ∀ r ∈ rows, List.Chain' (fun a b => a.1 < b.1) r) :
    WF (csrFromRows c z rows) := by
  refine ⟨?_, ?_, ?_, ?_, ?_, ?_, ?_, ?_⟩
  · show (List.scanl _ 0 rows).length = rows.length + 1
    rw [List.length_scanl]
  · show ((rows.flatMap id).map Prod.fst).length = z
    rw [List.length_map, List.length_flatMap, hz]
    unfold sumLens
    congr 1
  · show ((rows.flatMap id).map Prod.snd).length = z
    rw [List.length_map, List.length_flatMap, hz]
    unfold sumLens
    congr 1
  · rw [csrFromRows_indptr_getD c z rows (Nat.zero_le _)]
    simp [sumLens]
  · intro i hi
    have hi' : i < rows.length := hi
    rw [csrFromRows_indptr_getD c z rows (by omega),
      csrFromRows_indptr_getD c z rows (by omega)]
    exact sumLens_take_le rows i
  · show (csrFromRows c z rows).indptr.getD rows.length 0 = z
    rw [csrFromRows_indptr_getD c z rows (Nat.le_refl _), List.take_length, hz]
  · intro i hi e he
    have hi' : i < rows.length := hi
    rw [csrRow_csrFromRows c z rows hi'] at he
    refine hc _ ?_ e he
    rw [List.getD_eq_getElem _ _ hi']
    exact List.getElem_mem hi'
  · intro i hi
    haveI : IsTrans (Nat × ℤ) (fun a b => a.1 < b.1) :=
      ⟨fun _ _ _ hab hbc => lt_trans hab hbc⟩
    have hi' : i < rows.length := hi
    rw [csrRow_csrFromRows c z rows hi']
    refine List.chain'_iff_pairwise.mp (hs _ ?_)
    rw [List.getD_eq_getElem _ _ hi']
    exact List.getElem_mem hi'

/-! ### Row-level characterization and WF preservation of the operations -/

theorem permute_csr_rows_spec {X : CSR} {map : List Nat} (hwf : WF X)
    (h : IsPermOf map X.nrows) :
    ∃ Xp, permute_csr_rows X map = .ok Xp ∧
      Xp.nrows = X.nrows ∧ Xp.ncols = X.ncols ∧ Xp.nnz = X.nnz ∧
      (∀ iNew < X.nrows, csrRow Xp iNew = csrRow X (map.getD iNew 0)) ∧
      WF Xp := by
  have hok : permute_csr_rows X map = .ok (csrFromRows X.ncols X.nnz
      ((List.range X.nrows).map (fun iNew => sortRow (csrRow X (map.getD iNew 0))))) := by
    unfold permute_csr_rows
    rw [if_neg (by simp [h.1])]
  have hlenr : ((List.range X.nrows).map
      (fun iNew => sortRow (csrRow X (map.getD iNew 0)))).length = X.nrows := by
    rw [List.length_map, List.length_range]
  have hz : X.nnz = sumLens ((List.range X.nrows).map
      (fun iNew => sortRow (csrRow X (map.getD iNew 0)))) := by
    unfold sumLens
    rw [List.map_map]
    have h1 : (List.map (List.length ∘ fun iNew => sortRow (csrRow X (map.getD iNew 0)))
        (List.range X.nrows)) =
        (List.range X.nrows).map (fun iNew => (csrRow X (map.getD iNew 0)).length) := by
      apply List.map_congr_left
      intro i _
      exact sortRow_length _
    rw [h1, sum_getD_perm h (fun iOld => (csrRow X iOld).length)]
    have h2 : sumLens (rowsOf X) =
        ((List.range X.nrows).map (fun iOld => (csrRow X iOld).length)).sum := by
      unfold sumLens rowsOf
      rw [List.map_map]
      rfl
    rw [← h2, wf_sumLens_rowsOf hwf]
  refine ⟨_, hok, hlenr, rfl, rfl, ?_, ?_⟩
  · intro iNew hi
    rw [csrRow_csrFromRows _ _ _ (by rw [hlenr]; exact hi),
      getD_map_range _ _ _ hi]
    exact sortRow_eq_self (wf_rows_chain' hwf _ (h.getD_lt hi))
  · apply wf_csrFromRows _ _ _ hz
    · intro r hr e he
      obtain ⟨iNew, hmem, hri⟩ := List.mem_map.mp hr
      subst hri
      have hi := List.mem_range.mp hmem
      have he' : e ∈ csrRow X (map.getD iNew 0) := (sortRow_perm _).mem_iff.mp he
      exact hwf.2.2.2.2.2.2.1 _ (h.getD_lt hi) e he'
    · intro r hr
      obtain ⟨iNew, hmem, hri⟩ := List.mem_map.mp hr
      subst hri
      have hi := List.mem_range.mp hmem
      rw [sortRow_eq_self (wf_rows_chain' hwf _ (h.getD_lt hi))]
      exact wf_rows_chain' hwf _ (h.getD_lt hi)

theorem unpermute_csr_rows_spec {Xp : CSR} {map : List Nat} (hwf : WF Xp)
    (h : IsPermOf map Xp.nrows) :
    ∃ X', unpermute_csr_rows Xp map = .ok X' ∧
      X'.nrows = Xp.nrows ∧ X'.ncols = Xp.ncols ∧ X'.nnz = Xp.nnz ∧
      (∀ iNew < Xp.nrows, csrRow X' (map.getD iNew 0) = csrRow Xp iNew) ∧
      WF X' := by
  have hnoany : ¬ (map.any (fun i => Xp.nrows ≤ i) = true) := by
    simp only [List.any_eq_true, not_exists]
    intro m
    simp only [not_and, decide_eq_true_eq]
    intro hm
    exact Nat.not_le.mpr (h.2.1 m hm)
  have hok : unpermute_csr_rows Xp map = .ok (csrFromRows Xp.ncols Xp.nnz
      ((List.range Xp.nrows).map (fun iOld =>
        sortRow (((List.range Xp.nrows).filter
          (fun iNew => map.getD iNew 0 == iOld)).flatMap
          (fun iNew => csrRow Xp iNew))))) := by
    unfold unpermute_csr_rows
    rw [if_neg (by simp [h.1]), if_neg hnoany]
  have hlenr : ((List.range Xp.nrows).map (fun iOld =>
      sortRow (((List.range Xp.nrows).filter
        (fun iNew => map.getD iNew 0 == iOld)).flatMap
        (fun iNew => csrRow Xp iNew)))).length = Xp.nrows := by
    rw [List.length_map, List.length_range]
  have hrowAt : ∀ iNew < Xp.nrows,
      ((List.range Xp.nrows).filter
        (fun i => map.getD i 0 == map.getD iNew 0)).flatMap
        (fun i => csrRow Xp i) = csrRow Xp iNew := by
    intro iNew hi
    obtain ⟨iNew', hlt', hval', hfil⟩ := h.filter_preimage (h.getD_lt hi)
    have : iNew' = iNew := h.getD_inj hlt' hi hval'
    subst this
    rw [hfil]
    simp
  have hz : Xp.nnz = sumLens ((List.range Xp.nrows).map (fun iOld =>
      sortRow (((List.range Xp.nrows).filter
        (fun iNew => map.getD iNew 0 == iOld)).flatMap
        (fun iNew => csrRow Xp iNew)))) := by
    unfold sumLens
    rw [List.map_map]
    have h1 : (List.map (List.length ∘ fun iOld =>
        sortRow (((List.range Xp.nrows).filter
          (fun iNew => map.getD iNew 0 == iOld)).flatMap
          (fun iNew => csrRow Xp iNew))) (List.range Xp.nrows)) =
        (List.range Xp.nrows).map (fun iOld =>
          ((((List.range Xp.nrows).filter
            (fun iNew => map.getD iNew 0 == iOld))).map
            (fun iNew => (csrRow Xp iNew).length)).sum) := by
      apply List.map_congr_left
      intro iOld _
      show (sortRow _).length = _
      rw [sortRow_length, List.length_flatMap]
      congr 1
    have h2 := sum_partition (List.range Xp.nrows) Xp.nrows
      (fun iNew => map.getD iNew 0) (fun iNew => (csrRow Xp iNew).length)
      (fun iNew hmem => h.getD_lt (List.mem_range.mp hmem))
    rw [h1, h2]
    have h3 : sumLens (rowsOf Xp) =
        ((List.range Xp.nrows).map (fun i => (csrRow Xp i).length)).sum := by
      unfold sumLens rowsOf
      rw [List.map_map]
      rfl
    rw [← h3, wf_sumLens_rowsOf hwf]
  refine ⟨_, hok, hlenr, rfl, rfl, ?_, ?_⟩
  · intro iNew hi
    rw [csrRow_csrFromRows _ _ _ (by rw [hlenr]; exact h.getD_lt hi),
      getD_map_range _ _ _ (h.getD_lt hi), hrowAt iNew hi]
    exact sortRow_eq_self (wf_rows_chain' hwf _ hi)
  · apply wf_csrFromRows _ _ _ hz
    · intro r hr e he
      obtain ⟨iOld, hmem, hri⟩ := List.mem_map.mp hr
      subst hri
      have he' := (sortRow_perm _).mem_iff.mp he
      obtain ⟨iNew, hin, hein⟩ := List.mem_flatMap.mp he'
      exact hwf.2.2.2.2.2.2.1 _
        (List.mem_range.mp (List.mem_of_mem_filter hin)) e hein
    · intro r hr
      obtain ⟨iOld, hmem, hri⟩ := List.mem_map.mp hr
      subst hri
      have hio := List.mem_range.mp hmem
      obtain ⟨iNew', hlt', hval', hfil⟩ := h.filter_preimage hio
      rw [hfil]
      simp only [List.flatMap_cons, List.flatMap_nil, List.append_nil]
      rw [sortRow_eq_self (wf_rows_chain' hwf _ hlt')]
      exact wf_rows_chain' hwf _ hlt'

theorem extract_tile_csr_spec {X : CSR} {t : Tile} (hwf : WF X)
    (hre : t.row_end ≤ X.nrows) :
    (extract_tile_csr X t).nrows = t.row_end - t.row_start ∧
    (extract_tile_csr X t).ncols = t.col_end - t.col_start ∧
    (∀ i < t.row_end - t.row_start,
      csrRow (extract_tile_csr X t) i =
        ((csrRow X (t.row_start + i)).filter
          (fun e => t.col_start ≤ e.1 && e.1 < t.col_end)).map
          (fun e => (e.1 - t.col_start, e.2))) ∧
    WF (extract_tile_csr X t) := by
  haveI : IsTrans (Nat × ℤ) (fun a b => a.1 < b.1) :=
    ⟨fun _ _ _ hab hbc => lt_trans hab hbc⟩
  have hlenr : ((List.range (t.row_end - t.row_start)).map (fun i =>
      ((csrRow X (t.row_start + i)).filter
        (fun e => t.col_start ≤ e.1 && e.1 < t.col_end)).map
        (fun e => (e.1 - t.col_start, e.2)))).length = t.row_end - t.row_start := by
    rw [List.length_map, List.length_range]
  refine ⟨hlenr, rfl, ?_, ?_⟩
  · intro i hi
    show csrRow (csrFromRows _ _ _) i = _
    rw [csrRow_csrFromRows _ _ _ (by rw [hlenr]; exact hi),
      getD_map_range _ _ _ hi]
  · apply wf_csrFromRows _ _ _ rfl
    · intro r hr e he
      obtain ⟨i, hmem, hri⟩ := List.mem_map.mp hr
      subst hri
      obtain ⟨e0, he0, hee⟩ := List.mem_map.mp he
      subst hee
      have hcond := List.of_mem_filter he0
      simp only [Bool.and_eq_true, decide_eq_true_eq] at hcond
      show e0.1 - t.col_start < t.col_end - t.col_start
      omega
    · intro r hr
      obtain ⟨i, hmem, hri⟩ := List.mem_map.mp hr
      subst hri
      have hi := List.mem_range.mp hmem
      have hrow : t.row_start + i < X.nrows := by omega
      have hchain := wf_rows_chain' hwf _ hrow
      have hpair := List.chain'_iff_pairwise.mp hchain
      have hpf := hpair.filter (fun e => t.col_start ≤ e.1 && e.1 < t.col_end)
      have hps : List.Pairwise
          (fun a b : Nat × ℤ => a.1 - t.col_start < b.1 - t.col_start)
          ((csrRow X (t.row_start + i)).filter
            (fun e => t.col_start ≤ e.1 && e.1 < t.col_end)) := by
        refine hpf.imp_of_mem ?_
        intro a b ha hb hab
        have hca := List.of_mem_filter ha
        simp only [Bool.and_eq_true, decide_eq_true_eq] at hca
        omega
      rw [List.chain'_iff_pairwise]
      exact List.pairwise_map.mpr hps

theorem pick_last {α : Type} :
    ∀ (l : List (Nat × α)) (d : α),
      l.foldl (fun _ w => w.2) d = d ∨
        l.foldl (fun _ w => w.2) d ∈ l.map Prod.snd := by
  intro l
  induction l with
  | nil => intro d; left; rfl
  | cons w ws ih =>
    intro d
    simp only [List.foldl_cons, List.map_cons]
    rcases ih w.2 with hd | hm
    · right; rw [hd]; exact List.mem_cons_self _ _
    · right; exact List.mem_cons_of_mem _ hm

theorem col_old2new_of_getD {cmap : List Nat} {n : Nat} (h : IsPermOf cmap n)
    {iNew : Nat} (hi : iNew < n) :
    (col_old2new_of cmap n).getD (cmap.getD iNew 0) 0 = iNew := by
  have hp : cmap.getD iNew 0 < n := h.getD_lt hi
  unfold col_old2new_of
  rw [scatterSet_getD _ _ _ _ (by rw [List.length_replicate]; exact hp)]
  rw [List.filter_map]
  have hfeq : (List.range n).filter
      ((fun w : Nat × Nat => w.1 == cmap.getD iNew 0) ∘
        (fun newCol => (cmap.getD newCol 0, newCol))) =
      (List.range n).filter (fun i => cmap.getD i 0 == cmap.getD iNew 0) := rfl
  rw [hfeq]
  obtain ⟨iNew', hlt', hval', hfil⟩ := h.filter_preimage hp
  have : iNew' = iNew := h.getD_inj hlt' hi hval'
  subst this
  rw [hfil]
  rfl

theorem col_old2new_of_spec {cmap : List Nat} {n : Nat} (h : IsPermOf cmap n)
    {c : Nat} (hc : c < n) :
    (col_old2new_of cmap n).getD c 0 < n ∧
      cmap.getD ((col_old2new_of cmap n).getD c 0) 0 = c := by
  obtain ⟨iNew, hi, hval⟩ := h.exists_preimage hc
  have hinv := col_old2new_of_getD h hi
  rw [hval] at hinv
  rw [hinv, hval]
  exact ⟨hi, rfl⟩

theorem col_old2new_of_inj {cmap : List Nat} {n : Nat} (h : IsPermOf cmap n)
    {c1 c2 : Nat} (h1 : c1 < n) (h2 : c2 < n)
    (heq : (col_old2new_of cmap n).getD c1 0 = (col_old2new_of cmap n).getD c2 0) :
    c1 = c2 := by
  have s1 := (col_old2new_of_spec h h1).2
  have s2 := (col_old2new_of_spec h h2).2
  rw [← s1, ← s2, heq]

theorem permute_csr_cols_spec {X : CSR} {cmap : List Nat} (hwf : WF X)
    (h : IsPermOf cmap X.ncols) :
    ∃ Xc, permute_csr_cols X cmap = .ok Xc ∧
      Xc.nrows = X.nrows ∧ Xc.ncols = X.ncols ∧ Xc.nnz = X.nnz ∧ WF Xc := by
  have hnoany1 : ¬ (cmap.any (fun c => X.ncols ≤ c) = true) := by
    simp only [List.any_eq_true, not_exists]
    intro m
    simp only [not_and, decide_eq_true_eq]
    intro hm
    exact Nat.not_le.mpr (h.2.1 m hm)
  have hnoany2 : ¬ (X.indices.any (fun c => X.ncols ≤ c) = true) := by
    simp only [List.any_eq_true, not_exists]
    intro c
    simp only [not_and, decide_eq_true_eq]
    intro hc
    exact Nat.not_le.mpr (wf_indices_lt hwf c hc)
  have hok : permute_csr_cols X cmap = .ok (csrFromRows X.ncols X.nnz
      ((List.range X.nrows).map (fun i =>
        sortRow ((csrRow X i).map
          (fun e => ((col_old2new_of cmap X.ncols).getD e.1 0, e.2)))))) := by
    unfold permute_csr_cols
    rw [if_neg (by simp [h.1]), if_neg hnoany1, if_neg hnoany2]
  have hlenr : ((List.range X.nrows).map (fun i =>
      sortRow ((csrRow X i).map
        (fun e => ((col_old2new_of cmap X.ncols).getD e.1 0, e.2))))).length =
      X.nrows := by
    rw [List.length_map, List.length_range]
  have hz : X.nnz = sumLens ((List.range X.nrows).map (fun i =>
      sortRow ((csrRow X i).map
        (fun e => ((col_old2new_of cmap X.ncols).getD e.1 0, e.2))))) := by
    unfold sumLens
    rw [List.map_map]
    have h1 : (List.map (List.length ∘ fun i =>
        sortRow ((csrRow X i).map
          (fun e => ((col_old2new_of cmap X.ncols).getD e.1 0, e.2))))
        (List.range X.nrows)) =
        (List.range X.nrows).map (fun i => (csrRow X i).length) := by
      apply List.map_congr_left
      intro i _
      show (sortRow _).length = _
      rw [sortRow_length, List.length_map]
    rw [h1]
    have h3 : sumLens (rowsOf X) =
        ((List.range X.nrows).map (fun i => (csrRow X i).length)).sum := by
      unfold sumLens rowsOf
      rw [List.map_map]
      rfl
    rw [← h3, wf_sumLens_rowsOf hwf]
  refine ⟨_, hok, hlenr, rfl, rfl, ?_⟩
  apply wf_csrFromRows _ _ _ hz
  · intro r hr e he
    obtain ⟨i, hmem, hri⟩ := List.mem_map.mp hr
    subst hri
    have he' := (sortRow_perm _).mem_iff.mp he
    obtain ⟨e0, he0, hee⟩ := List.mem_map.mp he'
    subst hee
    exact (col_old2new_of_spec h
      (hwf.2.2.2.2.2.2.1 _ (List.mem_range.mp hmem) e0 he0)).1
  · intro r hr
    obtain ⟨i, hmem, hri⟩ := List.mem_map.mp hr
    subst hri
    have hi := List.mem_range.mp hmem
    apply sortRow_chain'
    have hker : ((csrRow X i).map
        (fun e => ((col_old2new_of cmap X.ncols).getD e.1 0, e.2))).map Prod.fst =
        ((csrRow X i).map Prod.fst).map
          (fun c => (col_old2new_of cmap X.ncols).getD c 0) := by
      rw [List.map_map, List.map_map]
      rfl
    rw [hker]
    apply List.Nodup.map_on
    · intro c1 hc1 c2 hc2 heq
      obtain ⟨e1, he1, he1c⟩ := List.mem_map.mp hc1
      obtain ⟨e2, he2, he2c⟩ := List.mem_map.mp hc2
      subst he1c
      subst he2c
      exact col_old2new_of_inj h (hwf.2.2.2.2.2.2.1 _ hi e1 he1)
        (hwf.2.2.2.2.2.2.1 _ hi e2 he2) heq
    · exact chain'_keys_nodup (wf_rows_chain' hwf _ hi)

/-! ### Claim C4 -/

/-- C4: for every well-formed CSR matrix `X` (rows sorted ascending by
column index) and every `row_new2old` that is a bijection on
`[0, X.nrows)`, `unpermute_csr_rows (permute_csr_rows X map) map` equals
`X` exactly — same `nrows`, `ncols`, `nnz`, `indptr`, `indices`, `data`,
with the same stored nonzeros in the same order. -/
theorem claim_C4_permute_unpermute_roundtrip (X : CSR) (row_new2old : List Nat)
    (hwf : WF X) (h : IsPermOf row_new2old X.nrows) :
    (permute_csr_rows X row_new2old).bind
      (fun Xp => unpermute_csr_rows Xp row_new2old) = .ok X := by
  obtain ⟨Xp, hok, hnr, hnc, hnz, hrow, hwfp⟩ := permute_csr_rows_spec hwf h
  rw [hok]
  show unpermute_csr_rows Xp row_new2old = .ok X
  have h' : IsPermOf row_new2old Xp.nrows := by rw [hnr]; exact h
  obtain ⟨X', hok', hnr', hnc', hnz', hrow', hwf'⟩ :=
    unpermute_csr_rows_spec hwfp h'
  have hrowall : ∀ iOld < X.nrows, csrRow X' iOld = csrRow X iOld := by
    intro iOld hio
    obtain ⟨iNew, hi, hval⟩ := h.exists_preimage hio
    have e1 := hrow' iNew (by rw [hnr]; exact hi)
    have e2 := hrow iNew hi
    rw [hval] at e1
    rw [hval] at e2
    rw [e1, e2]
  have hXX' : X' = X := by
    have h1 := csrFromRows_rowsOf hwf'
    have h2 := csrFromRows_rowsOf hwf
    have hnr'' : X'.nrows = X.nrows := by rw [hnr', hnr]
    have hrowseq : rowsOf X' = rowsOf X := by
      unfold rowsOf
      rw [hnr'']
      apply List.map_congr_left
      intro i hi
      exact hrowall i (List.mem_range.mp hi)
    rw [← h1, ← h2, hrowseq, hnc', hnc, hnz', hnz]
  rw [hok', hXX']

/-- Witness for C4 at the scenario matrix and the bijection `[2,0,1,3]`. -/
theorem claim_C4_witness :
    WF scenarioX ∧ IsPermOf [2, 0, 1, 3] scenarioX.nrows ∧
      (permute_csr_rows scenarioX [2, 0, 1, 3]).bind
        (fun Xp => unpermute_csr_rows Xp [2, 0, 1, 3]) = .ok scenarioX :=
  ⟨by decide, by decide,
    claim_C4_permute_unpermute_roundtrip scenarioX [2, 0, 1, 3]
      (by decide) (by decide)⟩

/-! ### Claim C10 -/

/-- C10: on a well-formed input CSR (monotone `indptr` from `0` to `nnz`,
in-range column indices, rows sorted ascending by column) and a valid
permutation map or in-bounds tile, each CSR-producing operation —
`permute_csr_rows`, `permute_csr_cols`, `unpermute_csr_rows`,
`extract_tile_csr` — returns a CSR satisfying all the well-formedness
conditions for its own dimensions. -/
theorem claim_C10_wf_preservation (X : CSR) (rmap cmap : List Nat) (t : Tile)
    (hwf : WF X) (hr : IsPermOf rmap X.nrows) (hcm : IsPermOf cmap X.ncols)
    (ht : t.row_end ≤ X.nrows) :
    (∃ Xp, permute_csr_rows X rmap = .ok Xp ∧ WF Xp) ∧
    (∃ Xc, permute_csr_cols X cmap = .ok Xc ∧ WF Xc) ∧
    (∃ Xu, unpermute_csr_rows X rmap = .ok Xu ∧ WF Xu) ∧
    WF (extract_tile_csr X t) := by
  refine ⟨?_, ?_, ?_, ?_⟩
  · obtain ⟨Xp, hok, -, -, -, -, hwfp⟩ := permute_csr_rows_spec hwf hr
    exact ⟨Xp, hok, hwfp⟩
  · obtain ⟨Xc, hok, -, -, -, hwfc⟩ := permute_csr_cols_spec hwf hcm
    exact ⟨Xc, hok, hwfc⟩
  · obtain ⟨Xu, hok, -, -, -, -, hwfu⟩ := unpermute_csr_rows_spec hwf hr
    exact ⟨Xu, hok, hwfu⟩
  · exact (extract_tile_csr_spec hwf ht).2.2.2

/-- Witness for C10 at the scenario matrix, maps `[2,0,1,3]` / `[1,3,0,2]`
and the top-left 2×2 tile. -/
theorem claim_C10_witness :
    WF scenarioX ∧
      ((∃ Xp, permute_csr_rows scenarioX [2, 0, 1, 3] = .ok Xp ∧ WF Xp) ∧
       (∃ Xc, permute_csr_cols scenarioX [1, 3, 0, 2] = .ok Xc ∧ WF Xc) ∧
       (∃ Xu, unpermute_csr_rows scenarioX [2, 0, 1, 3] = .ok Xu ∧ WF Xu) ∧
       WF (extract_tile_csr scenarioX
         { row_start := 0, row_end := 2, col_start := 0, col_end := 2,
           nnz := 2, is_dense := false })) :=
  ⟨by decide,
    claim_C10_wf_preservation scenarioX [2, 0, 1, 3] [1, 3, 0, 2]
      { row_start := 0, row_end := 2, col_start := 0, col_end := 2,
        nnz := 2, is_dense := false }
      (by decide) (by decide) (by decide) (by decide)⟩

/-! ### Claim C9 -/

/-- C9 counterexample: tiling the scenario matrix at 2×2 does NOT yield the
nnz multiset {2,0,1,3} stated by the spec; the actual per-tile counts are
(row-major) [2,1,1,2]. -/
theorem claim_C9_counterexample :
    ¬ ((((make_2d_tiles scenarioX 2 2).map (fun t => t.nnz) : List Nat) :
      Multiset Nat) = {2, 0, 1, 3}) := by
  decide

/-- C9 amended: for the 4×4 matrix with nonzeros (0,0)=1, (0,2)=2, (1,1)=3,
(2,0)=4, (2,2)=5, (3,3)=6, `make_2d_tiles` at 2×2 produces exactly 4 tiles
whose nnz counts are the multiset {2,1,1,2} ([2,1,1,2] in row-major tile
order) and sum to 6, matching the total nnz. -/
theorem claim_C9_tiling_scenario :
    (make_2d_tiles scenarioX 2 2).length = 4 ∧
    (((make_2d_tiles scenarioX 2 2).map (fun t => t.nnz) : List Nat) :
      Multiset Nat) = {2, 1, 1, 2} ∧
    ((make_2d_tiles scenarioX 2 2).map (fun t => t.nnz)).sum = 6 := by
  refine ⟨by decide, by decide, by decide⟩

/-! ### Claim C7 -/

/-- C7 (code-bug evidence): `permute_csr_rows` raises only on a map-length
mismatch.  For the 1×1 matrix and the length-matching map `[3]`, whose
single entry is out of range, it raises no error: the C++ uses the entry
unchecked to index `indptr` (an out-of-bounds read — undefined behavior,
never an `InvalidPermutation` failure), contrary to §7 of the design and
to the explicit range checks of its siblings `unpermute_csr_rows`,
`permute_weight_rows`, `unpermute_rows` and `permute_csr_cols`.  In the
embedding the unchecked reads default to `0`, producing the degenerate
matrix below rather than an error. -/
theorem claim_C7_no_range_check :
    (permute_csr_rows oneByOneX [0, 1] =
      .error "permute_csr_rows: row_new2old size mismatch") ∧
    (permute_csr_rows oneByOneX [3] = .ok
      { nrows := 1, ncols := 1, nnz := 1, indptr := [0, 0],
        indices := [], data := [] }) := by
  exact ⟨rfl, rfl⟩

/-! ### Claim C8 -/

/-- C8 (code-bug evidence): the descending comparator `create_row_new2old`
hands to `std::sort` compares counts only — on the counts `[2,3,2]` it
returns `false` in both directions for the tied indices 0 and 2, so no
ascending-index tie-break is specified and the unstable `std::sort` may
order equal-count indices either way.  Indeed the embedding's admissible
refinement of `std::sort` (insertion sort with the same comparator)
returns `[1,2,0]`, placing tied index 2 before tied index 0. -/
theorem claim_C8_comparator_silent_on_ties :
    rowCountCmpDesc [2, 3, 2] 0 2 = false ∧
    rowCountCmpDesc [2, 3, 2] 2 0 = false ∧
    create_row_new2old [2, 3, 2] true = [1, 2, 0] := by
  exact ⟨rfl, rfl, rfl⟩

/-! ### Claim C5 -/

/-- C5 counterexample: a 10×10 tile with one stored nonzero (density 1/100)
classified by `predict_tile_density` with the caller-supplied threshold
1/200 carries `is_dense = true`, yet the driver's routing predicate sends
it down the sparse path (1/100 < DENSE_TILE_THRESHOLD = 1/20): the
routing is not the classification flag. -/
theorem claim_C5_counterexample :
    (classifyTile (1 / 200)
      { row_start := 0, row_end := 10, col_start := 0, col_end := 10,
        nnz := 1, is_dense := false }).is_dense = true ∧
    routesDense (classifyTile (1 / 200)
      { row_start := 0, row_end := 10, col_start := 0, col_end := 10,
        nnz := 1, is_dense := false }) = false := by
  constructor
  · norm_num [classifyTile, tileDensity]
  · norm_num [classifyTile, routesDense, tileDensity, DENSE_TILE_THRESHOLD]

/-- C5 amended: `process_tiles_with_predictor` routes a tile to the dense
pipeline iff `tile.density() ≥ hw_config::DENSE_TILE_THRESHOLD` (= 0.05), a
fixed constant recomputed per tile; its output is invariant under arbitrary
rewriting of every tile's `is_dense` flag, and the routing coincides with
the classification flag exactly when `predict_tile_density` was run with
that same hardware threshold. -/
theorem claim_C5_routing_by_hw_threshold (X : CSR) (W : List ℤ)
    (W_rows W_cols : Nat) (tiles : List Tile) (f : Tile → Bool) (th : ℚ)
    (hth : th = DENSE_TILE_THRESHOLD) :
    process_tiles_with_predictor X W W_rows W_cols
      (tiles.map (fun t => { t with is_dense := f t })) =
      process_tiles_with_predictor X W W_rows W_cols tiles ∧
    (∀ t : Tile, routesDense t =
      decide (DENSE_TILE_THRESHOLD ≤ tileDensity t)) ∧
    (∀ t ∈ (predict_tile_density tiles th).1, t.is_dense = routesDense t) := by
  refine ⟨?_, fun t => rfl, ?_⟩
  · unfold process_tiles_with_predictor
    rw [List.foldlM_map]
    rfl
  · intro t ht
    obtain ⟨t0, -, hteq⟩ := List.mem_map.mp ht
    subst hteq
    subst hth
    rfl

/-- Witness for C5's amended routing statement at the scenario data. -/
theorem claim_C5_routing_witness :
    process_tiles_with_predictor scenarioX scenarioW 4 2
      ((make_2d_tiles scenarioX 2 2).map (fun t => { t with is_dense := false })) =
      process_tiles_with_predictor scenarioX scenarioW 4 2
        (make_2d_tiles scenarioX 2 2) ∧
    (∀ t ∈ (predict_tile_density (make_2d_tiles scenarioX 2 2)
      DENSE_TILE_THRESHOLD).1, t.is_dense = routesDense t) :=
  ⟨(claim_C5_routing_by_hw_threshold scenarioX scenarioW 4 2
      (make_2d_tiles scenarioX 2 2) (fun _ => false)
      DENSE_TILE_THRESHOLD rfl).1,
   (claim_C5_routing_by_hw_threshold scenarioX scenarioW 4 2
      (make_2d_tiles scenarioX 2 2) (fun _ => false)
      DENSE_TILE_THRESHOLD rfl).2.2⟩

/-! ### Characterization of the dense-buffer operations -/

theorem mkMat_congr {α : Type} {rows cols : Nat} {f g : Nat → Nat → α}
    (h : ∀ i < rows, ∀ j < cols, f i j = g i j) :
    mkMat rows cols f = mkMat rows cols g := by
  unfold mkMat
  apply List.flatMap_congr
  intro i hi
  apply List.map_congr_left
  intro j hj
  exact h i (List.mem_range.mp hi) j (List.mem_range.mp hj)

/-- Uniqueness of the `(row, col)` decomposition of a flat row-major
position. -/
theorem row_col_inj {a b j j' cols : Nat} (hj : j < cols) (hj' : j' < cols)
    (heq : a * cols + j = b * cols + j') : a = b ∧ j = j' := by
  have hmod : j = j' := by
    have h1 : (a * cols + j) % cols = j := by
      rw [Nat.mul_comm a cols, Nat.mul_add_mod]
      exact Nat.mod_eq_of_lt hj
    have h2 : (b * cols + j') % cols = j' := by
      rw [Nat.mul_comm b cols, Nat.mul_add_mod]
      exact Nat.mod_eq_of_lt hj'
    rw [← h1, ← h2, heq]
  subst hmod
  refine ⟨?_, rfl⟩
  have : a * cols = b * cols := by omega
  exact Nat.eq_of_mul_eq_mul_right (by omega) this

theorem pos_lt_of_row_col {i j rows cols : Nat} (hi : i < rows) (hj : j < cols) :
    i * cols + j < rows * cols := by
  calc i * cols + j < i * cols + cols := by omega
  _ = (i + 1) * cols := by ring
  _ ≤ rows * cols := Nat.mul_le_mul_right cols hi

/-- Gather characterization of `unpermute_rows` under a permutation map:
the call succeeds and the output row `map[i_new]` is the input row
`i_new`. -/
theorem unpermute_rows_spec {Y_prime : List ℤ} {Y_rows Y_cols : Nat}
    {map : List Nat} (h : IsPermOf map Y_rows)
    (hlen : Y_prime.length = Y_rows * Y_cols) :
    ∃ Y, unpermute_rows Y_prime Y_rows Y_cols map = .ok Y ∧
      Y.length = Y_rows * Y_cols ∧
      ∀ iNew < Y_rows, ∀ j < Y_cols,
        Y.getD (map.getD iNew 0 * Y_cols + j) 0 =
          Y_prime.getD (iNew * Y_cols + j) 0 := by
  have hnoany : ¬ (map.any (fun i => Y_rows ≤ i) = true) := by
    simp only [List.any_eq_true, not_exists]
    intro m
    simp only [not_and, decide_eq_true_eq]
    intro hm
    exact Nat.not_le.mpr (h.2.1 m hm)
  have hok : unpermute_rows Y_prime Y_rows Y_cols map =
      .ok (scatterSet (List.replicate (Y_rows * Y_cols) 0)
        (mkMat Y_rows Y_cols (fun iNew j =>
          (map.getD iNew 0 * Y_cols + j,
            Y_prime.getD (iNew * Y_cols + j) 0)))) := by
    unfold unpermute_rows
    rw [if_neg (by simp [h.1]), if_neg (by simp [hlen]), if_neg hnoany]
  refine ⟨_, hok, ?_, ?_⟩
  · rw [scatterSet_length, List.length_replicate]
  · intro iNew hi j hj
    have hp : map.getD iNew 0 * Y_cols + j < Y_rows * Y_cols :=
      pos_lt_of_row_col (h.getD_lt hi) hj
    rw [scatterSet_getD _ _ _ _ (by rw [List.length_replicate]; exact hp)]
    have hfil : (mkMat Y_rows Y_cols (fun i' j' =>
        (map.getD i' 0 * Y_cols + j', Y_prime.getD (i' * Y_cols + j') 0))).filter
        (fun w => w.1 == map.getD iNew 0 * Y_cols + j) =
        [(map.getD iNew 0 * Y_cols + j, Y_prime.getD (iNew * Y_cols + j) 0)] := by
      unfold mkMat
      rw [filter_flatMap]
      have hinner : ∀ i' ∈ List.range Y_rows,
          ((List.range Y_cols).map (fun j' =>
            (map.getD i' 0 * Y_cols + j', Y_prime.getD (i' * Y_cols + j') 0))).filter
            (fun w => w.1 == map.getD iNew 0 * Y_cols + j) =
          (if i' = iNew then
            [(map.getD iNew 0 * Y_cols + j, Y_prime.getD (iNew * Y_cols + j) 0)]
          else []) := by
        intro i' hi'
        have hi'' := List.mem_range.mp hi'
        rw [List.filter_map]
        by_cases hcase : i' = iNew
        · subst hcase
          rw [if_pos rfl]
          have : (List.range Y_cols).filter
              ((fun w : Nat × ℤ => w.1 == map.getD i' 0 * Y_cols + j) ∘
                (fun j' => (map.getD i' 0 * Y_cols + j',
                  Y_prime.getD (i' * Y_cols + j') 0))) = [j] := by
            apply filter_unique (List.nodup_range _) j (List.mem_range.mpr hj)
            · simp
            · intro b hb hpb
              simp only [Function.comp, beq_iff_eq] at hpb
              exact (row_col_inj (List.mem_range.mp hb) hj hpb).2
          rw [this]
          rfl
        · rw [if_neg hcase]
          have : (List.range Y_cols).filter
              ((fun w : Nat × ℤ => w.1 == map.getD iNew 0 * Y_cols + j) ∘
                (fun j' => (map.getD i' 0 * Y_cols + j',
                  Y_prime.getD (i' * Y_cols + j') 0))) = [] := by
            rw [List.filter_eq_nil_iff]
            intro j' hj'
            simp only [Function.comp, beq_iff_eq]
            intro hpb
            have := (row_col_inj (List.mem_range.mp hj') hj hpb).1
            exact hcase (h.getD_inj hi'' hi this)
          rw [this]
          rfl
      calc (List.range Y_rows).flatMap (fun i' =>
            (((List.range Y_cols).map (fun j' =>
              (map.getD i' 0 * Y_cols + j',
                Y_prime.getD (i' * Y_cols + j') 0))).filter
              (fun w => w.1 == map.getD iNew 0 * Y_cols + j)))
          = (List.range Y_rows).flatMap (fun i' =>
              (if i' = iNew then
                [(map.getD iNew 0 * Y_cols + j,
                  Y_prime.getD (iNew * Y_cols + j) 0)]
              else [])) := by
            apply List.flatMap_congr ?_
            exact hinner
        _ = [(map.getD iNew 0 * Y_cols + j,
              Y_prime.getD (iNew * Y_cols + j) 0)] := by
            rw [flatMap_single (List.nodup_range _) iNew
              (List.mem_range.mpr hi) _
              (fun b _ hb => by rw [if_neg hb])]
            rw [if_pos rfl]
    rw [hfil]
    rfl

theorem spmm_baseline_ok {X : CSR} {W : List ℤ} {W_rows W_cols : Nat}
    (hdim : X.ncols = W_rows) :
    spmm_baseline X W W_rows W_cols = .ok (mkMat X.nrows W_cols (fun i j =>
      ((csrRow X i).map (fun e => e.2 * W.getD (e.1 * W_cols + j) 0)).sum)) := by
  unfold spmm_baseline
  rw [if_neg (by omega)]

/-! ### Claim C6 -/

/-- C6: for every well-formed CSR `X`, dense `W` with `W_rows = X.ncols`,
and every bijection `row_new2old` on `[0, X.nrows)`, permuting the rows of
`X`, multiplying by the baseline, and un-permuting the result rows yields
exactly the unpermuted baseline product (exact arithmetic). -/
theorem claim_C6_permute_multiply_unpermute (X : CSR) (W : List ℤ)
    (W_rows W_cols : Nat) (row_new2old : List Nat) (hwf : WF X)
    (h : IsPermOf row_new2old X.nrows) (hdim : X.ncols = W_rows) :
    ((permute_csr_rows X row_new2old).bind
      (fun Xp => spmm_baseline Xp W W_rows W_cols)).bind
      (fun Yp => unpermute_rows Yp X.nrows W_cols row_new2old) =
    spmm_baseline X W W_rows W_cols := by
  obtain ⟨Xp, hok, hnr, hnc, hnz, hrow, hwfp⟩ := permute_csr_rows_spec hwf h
  rw [hok]
  show ((spmm_baseline Xp W W_rows W_cols).bind
    (fun Yp => unpermute_rows Yp X.nrows W_cols row_new2old)) = _
  have hdim' : Xp.ncols = W_rows := by rw [hnc, hdim]
  rw [spmm_baseline_ok hdim']
  show unpermute_rows (mkMat Xp.nrows W_cols _) X.nrows W_cols row_new2old = _
  have hlen : (mkMat Xp.nrows W_cols (fun i j =>
      ((csrRow Xp i).map (fun e => e.2 * W.getD (e.1 * W_cols + j) 0)).sum)).length =
      X.nrows * W_cols := by
    rw [mkMat_length, hnr]
  obtain ⟨Y, hokU, hYlen, hYval⟩ := unpermute_rows_spec h hlen
  rw [hokU, spmm_baseline_ok hdim]
  congr 1
  apply List.ext_getElem
  · rw [hYlen, mkMat_length]
  · intro p h1 h2
    have hp : p < X.nrows * W_cols := by rw [← hYlen]; exact h1
    have hcols : 0 < W_cols := by
      rcases Nat.eq_zero_or_pos W_cols with hz | hpos
      · rw [hz, Nat.mul_zero] at hp; omega
      · exact hpos
    have hdecomp : p = (p / W_cols) * W_cols + p % W_cols := by
      rw [Nat.mul_comm]
      exact (Nat.div_add_mod p W_cols).symm
    have hi : p / W_cols < X.nrows := (Nat.div_lt_iff_lt_mul hcols).mpr hp
    have hjp : p % W_cols < W_cols := Nat.mod_lt _ hcols
    obtain ⟨iNew, hiNew, hmapval⟩ := h.exists_preimage hi
    rw [← List.getD_eq_getElem _ 0 h1, ← List.getD_eq_getElem _ 0 h2]
    calc Y.getD p 0
        = Y.getD (row_new2old.getD iNew 0 * W_cols + p % W_cols) 0 := by
          rw [hmapval, ← hdecomp]
      _ = (mkMat Xp.nrows W_cols (fun i j =>
            ((csrRow Xp i).map
              (fun e => e.2 * W.getD (e.1 * W_cols + j) 0)).sum)).getD
            (iNew * W_cols + p % W_cols) 0 := hYval iNew hiNew _ hjp
      _ = ((csrRow Xp iNew).map
            (fun e => e.2 * W.getD (e.1 * W_cols + p % W_cols) 0)).sum := by
          exact mkMat_getD _ 0 (by rw [hnr]; exact hiNew) hjp
      _ = ((csrRow X (p / W_cols)).map
            (fun e => e.2 * W.getD (e.1 * W_cols + p % W_cols) 0)).sum := by
          rw [hrow iNew hiNew, hmapval]
      _ = (mkMat X.nrows W_cols (fun i j =>
            ((csrRow X i).map
              (fun e => e.2 * W.getD (e.1 * W_cols + j) 0)).sum)).getD p 0 := by
          conv_rhs => rw [hdecomp]
          rw [mkMat_getD _ 0 hi hjp]

/-- Witness for C6 at the scenario data and the bijection `[2,0,1,3]`. -/
theorem claim_C6_witness :
    WF scenarioX ∧ IsPermOf [2, 0, 1, 3] scenarioX.nrows ∧
      scenarioX.ncols = 4 ∧
      ((permute_csr_rows scenarioX [2, 0, 1, 3]).bind
        (fun Xp => spmm_baseline Xp scenarioW 4 2)).bind
        (fun Yp => unpermute_rows Yp scenarioX.nrows 2 [2, 0, 1, 3]) =
      spmm_baseline scenarioX scenarioW 4 2 :=
  ⟨by decide, by decide, rfl,
    claim_C6_permute_multiply_unpermute scenarioX scenarioW 4 2 [2, 0, 1, 3]
      (by decide) (by decide) rfl⟩

/-! ### The materialized dense tile, as a sum -/

theorem lastVal_eq_zero {row : List (Nat × ℤ)} {k : Nat}
    (h : k ∉ row.map Prod.fst) : lastVal row k = 0 := by
  unfold lastVal
  have hfil : row.filter (fun e => e.1 == k) = [] := by
    rw [List.filter_eq_nil_iff]
    intro e he hbe
    simp only [beq_iff_eq] at hbe
    exact h (hbe ▸ List.mem_map_of_mem Prod.fst he)
  rw [hfil]
  rfl

theorem lastVal_cons {e : Nat × ℤ} {row : List (Nat × ℤ)}
    (hek : e.1 ∉ row.map Prod.fst) (k : Nat) :
    lastVal (e :: row) k = if k = e.1 then e.2 else lastVal row k := by
  by_cases hk : k = e.1
  · rw [if_pos hk]
    unfold lastVal
    rw [List.filter_cons_of_pos (by simp [hk])]
    have hfil : row.filter (fun x => x.1 == k) = [] := by
      rw [List.filter_eq_nil_iff]
      intro x hx hbx
      simp only [beq_iff_eq] at hbx
      exact hek ((hk ▸ hbx : x.1 = e.1) ▸ List.mem_map_of_mem Prod.fst hx)
    rw [hfil]
    rfl
  · rw [if_neg hk]
    unfold lastVal
    rw [List.filter_cons_of_neg (by simp; omega)]

/-- Summing the materialized row against any column weights equals summing
the stored entries: the dense scatter loses nothing on a row with
distinct, in-range columns. -/
theorem sum_lastVal {row : List (Nat × ℤ)} {K : Nat}
    (hnd : (row.map Prod.fst).Nodup) (hlt : ∀ e ∈ row, e.1 < K) (g : Nat → ℤ) :
    ((List.range K).map (fun k => lastVal row k * g k)).sum =
      (row.map (fun e => e.2 * g e.1)).sum := by
  induction row with
  | nil =>
    rw [sum_map_range]
    simp [lastVal]
  | cons e row ih =>
    have hek := (List.nodup_cons.mp hnd).1
    have hnd' := (List.nodup_cons.mp hnd).2
    have hlt' : ∀ x ∈ row, x.1 < K := fun x hx => hlt x (List.mem_cons_of_mem _ hx)
    have heK : e.1 < K := hlt e (List.mem_cons_self _ _)
    rw [sum_map_range]
    calc ∑ k ∈ Finset.range K, lastVal (e :: row) k * g k
        = ∑ k ∈ Finset.range K,
            ((if k = e.1 then e.2 * g k else 0) + lastVal row k * g k) := by
          apply Finset.sum_congr rfl
          intro k _
          rw [lastVal_cons hek]
          by_cases h : k = e.1
          · rw [if_pos h, if_pos h]
            subst h
            rw [lastVal_eq_zero hek]
            ring
          · rw [if_neg h, if_neg h]
            ring
      _ = e.2 * g e.1 + ∑ k ∈ Finset.range K, lastVal row k * g k := by
          rw [Finset.sum_add_distrib, Finset.sum_ite_eq' (Finset.range K) e.1
            (fun k => e.2 * g k), if_pos (Finset.mem_range.mpr heK)]
      _ = e.2 * g e.1 + (row.map (fun x => x.2 * g x.1)).sum := by
          rw [← ih hnd' hlt', sum_map_range]
      _ = ((e :: row).map (fun x => x.2 * g x.1)).sum := by
          rw [List.map_cons, List.sum_cons]

theorem permute_weight_rows_ok {W : List ℤ} {W_rows W_cols : Nat}
    {map : List Nat} (h : IsPermOf map W_rows)
    (hW : W.length = W_rows * W_cols) :
    permute_weight_rows W W_rows W_cols map = .ok (mkMat W_rows W_cols
      (fun iNew j => W.getD (map.getD iNew 0 * W_cols + j) 0)) := by
  have hnoany : ¬ (map.any (fun i => W_rows ≤ i) = true) := by
    simp only [List.any_eq_true, not_exists]
    intro m
    simp only [not_and, decide_eq_true_eq]
    intro hm
    exact Nat.not_le.mpr (h.2.1 m hm)
  unfold permute_weight_rows
  rw [if_neg (by simp [h.1]), if_neg (by simp [hW]), if_neg hnoany]

/-- The heart of claims C3 and C1's dense path: with ANY two permutation
maps in place of the `std::sort` outputs, the dense pipeline (materialize,
permute rows, permute columns of the tile and rows of the slice, dense
GEMM, un-permute result rows) returns exactly the sparse pipeline's
result. -/
theorem dense_perm_spmm_tile_with_eq (X_tile : CSR) (W_tile : List ℤ)
    (W_cols : Nat) (rmap cmap : List Nat) (hwf : WF X_tile)
    (hr : IsPermOf rmap X_tile.nrows) (hcm : IsPermOf cmap X_tile.ncols)
    (hW : W_tile.length = X_tile.ncols * W_cols) :
    dense_perm_spmm_tile_with X_tile W_tile X_tile.ncols W_cols rmap cmap =
      sparse_spmm_tile X_tile W_tile X_tile.ncols W_cols := by
  have hWp := @permute_weight_rows_ok W_tile X_tile.ncols W_cols cmap hcm hW
  have hred : dense_perm_spmm_tile_with X_tile W_tile X_tile.ncols W_cols
      rmap cmap =
      unpermute_rows
        (dense_spmm_cpu_tile
          (permute_dense_cols
            (permute_dense_rows (materialize_csr_to_dense X_tile)
              X_tile.nrows X_tile.ncols rmap)
            X_tile.nrows X_tile.ncols cmap)
          (mkMat X_tile.ncols W_cols
            (fun iNew j => W_tile.getD (cmap.getD iNew 0 * W_cols + j) 0))
          X_tile.nrows X_tile.ncols W_cols)
        X_tile.nrows W_cols rmap := by
    simp only [dense_perm_spmm_tile_with]
    rw [if_neg (by simp [hcm.1]), hWp]
  have hptwise : ∀ i < X_tile.nrows, ∀ j < W_cols,
      ((List.range X_tile.ncols).map (fun k =>
        (permute_dense_cols
          (permute_dense_rows (materialize_csr_to_dense X_tile)
            X_tile.nrows X_tile.ncols rmap)
          X_tile.nrows X_tile.ncols cmap).getD (i * X_tile.ncols + k) 0 *
        (mkMat X_tile.ncols W_cols
          (fun iNew j' => W_tile.getD (cmap.getD iNew 0 * W_cols + j') 0)).getD
          (k * W_cols + j) 0)).sum =
      ((csrRow X_tile (rmap.getD i 0)).map
        (fun e => e.2 * W_tile.getD (e.1 * W_cols + j) 0)).sum := by
    intro i hi j hj
    have hstep : ∀ k ∈ List.range X_tile.ncols,
        (permute_dense_cols
          (permute_dense_rows (materialize_csr_to_dense X_tile)
            X_tile.nrows X_tile.ncols rmap)
          X_tile.nrows X_tile.ncols cmap).getD (i * X_tile.ncols + k) 0 *
        (mkMat X_tile.ncols W_cols
          (fun iNew j' => W_tile.getD (cmap.getD iNew 0 * W_cols + j') 0)).getD
          (k * W_cols + j) 0 =
        lastVal (csrRow X_tile (rmap.getD i 0)) (cmap.getD k 0) *
          W_tile.getD (cmap.getD k 0 * W_cols + j) 0 := by
      intro k hk
      have hkK := List.mem_range.mp hk
      have h1 : (permute_dense_cols
          (permute_dense_rows (materialize_csr_to_dense X_tile)
            X_tile.nrows X_tile.ncols rmap)
          X_tile.nrows X_tile.ncols cmap).getD (i * X_tile.ncols + k) 0 =
          lastVal (csrRow X_tile (rmap.getD i 0)) (cmap.getD k 0) := by
        unfold permute_dense_cols
        rw [mkMat_getD _ 0 hi hkK]
        unfold permute_dense_rows
        rw [mkMat_getD _ 0 hi (hcm.getD_lt hkK)]
        unfold materialize_csr_to_dense
        rw [mkMat_getD _ 0 (hr.getD_lt hi) (hcm.getD_lt hkK)]
      have h2 : (mkMat X_tile.ncols W_cols
          (fun iNew j' => W_tile.getD (cmap.getD iNew 0 * W_cols + j') 0)).getD
          (k * W_cols + j) 0 =
          W_tile.getD (cmap.getD k 0 * W_cols + j) 0 := by
        rw [mkMat_getD _ 0 hkK hj]
      rw [h1, h2]
    rw [List.map_congr_left hstep]
    rw [sum_getD_perm hcm (fun c =>
      lastVal (csrRow X_tile (rmap.getD i 0)) c *
        W_tile.getD (c * W_cols + j) 0)]
    exact sum_lastVal
      (chain'_keys_nodup (wf_rows_chain' hwf _ (hr.getD_lt hi)))
      (hwf.2.2.2.2.2.2.1 _ (hr.getD_lt hi))
      (fun c => W_tile.getD (c * W_cols + j) 0)
  have hYpmk : dense_spmm_cpu_tile
      (permute_dense_cols
        (permute_dense_rows (materialize_csr_to_dense X_tile)
          X_tile.nrows X_tile.ncols rmap)
        X_tile.nrows X_tile.ncols cmap)
      (mkMat X_tile.ncols W_cols
        (fun iNew j => W_tile.getD (cmap.getD iNew 0 * W_cols + j) 0))
      X_tile.nrows X_tile.ncols W_cols =
      mkMat X_tile.nrows W_cols (fun i j =>
        ((csrRow X_tile (rmap.getD i 0)).map
          (fun e => e.2 * W_tile.getD (e.1 * W_cols + j) 0)).sum) := by
    unfold dense_spmm_cpu_tile
    exact mkMat_congr hptwise
  rw [hred, hYpmk]
  have hlenYp : (mkMat X_tile.nrows W_cols (fun i j =>
      ((csrRow X_tile (rmap.getD i 0)).map
        (fun e => e.2 * W_tile.getD (e.1 * W_cols + j) 0)).sum)).length =
      X_tile.nrows * W_cols := mkMat_length _ _ _
  obtain ⟨Y, hokU, hYlen, hYval⟩ := unpermute_rows_spec hr hlenYp
  rw [hokU]
  unfold sparse_spmm_tile
  rw [spmm_baseline_ok rfl]
  congr 1
  apply List.ext_getElem
  · rw [hYlen, mkMat_length]
  · intro p h1 h2
    have hp : p < X_tile.nrows * W_cols := by rw [← hYlen]; exact h1
    have hcols : 0 < W_cols := by
      rcases Nat.eq_zero_or_pos W_cols with hz | hpos
      · rw [hz, Nat.mul_zero] at hp; omega
      · exact hpos
    have hdecomp : p = (p / W_cols) * W_cols + p % W_cols := by
      rw [Nat.mul_comm]
      exact (Nat.div_add_mod p W_cols).symm
    have hi : p / W_cols < X_tile.nrows := (Nat.div_lt_iff_lt_mul hcols).mpr hp
    have hjp : p % W_cols < W_cols := Nat.mod_lt _ hcols
    obtain ⟨iNew, hiNew, hmapval⟩ := hr.exists_preimage hi
    rw [← List.getD_eq_getElem _ 0 h1, ← List.getD_eq_getElem _ 0 h2]
    calc Y.getD p 0
        = Y.getD (rmap.getD iNew 0 * W_cols + p % W_cols) 0 := by
          rw [hmapval, ← hdecomp]
      _ = (mkMat X_tile.nrows W_cols (fun i j =>
            ((csrRow X_tile (rmap.getD i 0)).map
              (fun e => e.2 * W_tile.getD (e.1 * W_cols + j) 0)).sum)).getD
            (iNew * W_cols + p % W_cols) 0 := hYval iNew hiNew _ hjp
      _ = ((csrRow X_tile (rmap.getD iNew 0)).map
            (fun e => e.2 * W_tile.getD (e.1 * W_cols + p % W_cols) 0)).sum := by
          exact mkMat_getD _ 0 hiNew hjp
      _ = ((csrRow X_tile (p / W_cols)).map
            (fun e => e.2 * W_tile.getD (e.1 * W_cols + p % W_cols) 0)).sum := by
          rw [hmapval]
      _ = (mkMat X_tile.nrows W_cols (fun i j =>
            ((csrRow X_tile i).map
              (fun e => e.2 * W_tile.getD (e.1 * W_cols + j) 0)).sum)).getD p 0 := by
          conv_rhs => rw [hdecomp]
          rw [mkMat_getD _ 0 hi hjp]

/-- The dense pipeline with the source's own `std::sort`-derived
permutations equals the sparse pipeline (shared by claims C1 and C3). -/
theorem dense_perm_spmm_tile_eq (X_tile : CSR)
    (W_tile : List ℤ) (W_cols : Nat) (hwf : WF X_tile)
    (hW : W_tile.length = X_tile.ncols * W_cols) :
    dense_perm_spmm_tile X_tile W_tile X_tile.ncols W_cols =
      sparse_spmm_tile X_tile W_tile X_tile.ncols W_cols := by
  have hrm : IsPermOf (create_row_new2old (compute_nnz_per_row X_tile) true)
      X_tile.nrows := by
    have h := isPermOf_create_row_new2old (compute_nnz_per_row X_tile) true
    have hl : (compute_nnz_per_row X_tile).length = X_tile.nrows := by
      unfold compute_nnz_per_row
      rw [List.length_map, List.length_range]
    rwa [hl] at h
  have hcmp : IsPermOf (create_col_new2old
      (dense_nnz_per_col
        (permute_dense_rows (materialize_csr_to_dense X_tile)
          X_tile.nrows X_tile.ncols
          (create_row_new2old (compute_nnz_per_row X_tile) true))
        X_tile.nrows X_tile.ncols) true) X_tile.ncols := by
    have h := isPermOf_create_col_new2old
      (dense_nnz_per_col
        (permute_dense_rows (materialize_csr_to_dense X_tile)
          X_tile.nrows X_tile.ncols
          (create_row_new2old (compute_nnz_per_row X_tile) true))
        X_tile.nrows X_tile.ncols) true
    have hl : (dense_nnz_per_col
        (permute_dense_rows (materialize_csr_to_dense X_tile)
          X_tile.nrows X_tile.ncols
          (create_row_new2old (compute_nnz_per_row X_tile) true))
        X_tile.nrows X_tile.ncols).length = X_tile.ncols := by
      unfold dense_nnz_per_col
      rw [List.length_map, List.length_range]
    rwa [hl] at h
  show dense_perm_spmm_tile_with X_tile W_tile X_tile.ncols W_cols _ _ = _
  exact dense_perm_spmm_tile_with_eq X_tile W_tile W_cols _ _ hwf hrm hcmp hW

/-! ### Claim C3 -/

/-- C3: for every well-formed extracted tile `X_tile` and dense slice
`W_tile` with `W_tile_rows = X_tile.ncols`, `dense_perm_spmm_tile` equals
`sparse_spmm_tile` exactly (exact arithmetic) — and more generally the
pipeline with ANY tile-local row/column permutations (covering every
outcome of the source's unstable `std::sort`) returns the same M×N block:
the permutations are never correctness-altering. -/
theorem claim_C3_dense_sparse_tile_equivalence (X_tile : CSR)
    (W_tile : List ℤ) (W_cols : Nat) (hwf : WF X_tile)
    (hW : W_tile.length = X_tile.ncols * W_cols) :
    dense_perm_spmm_tile X_tile W_tile X_tile.ncols W_cols =
      sparse_spmm_tile X_tile W_tile X_tile.ncols W_cols ∧
    (∀ rmap cmap, IsPermOf rmap X_tile.nrows → IsPermOf cmap X_tile.ncols →
      dense_perm_spmm_tile_with X_tile W_tile X_tile.ncols W_cols rmap cmap =
        sparse_spmm_tile X_tile W_tile X_tile.ncols W_cols) := by
  constructor
  · exact dense_perm_spmm_tile_eq X_tile W_tile W_cols hwf hW
  · intro rmap cmap hr hcm
    exact dense_perm_spmm_tile_with_eq X_tile W_tile W_cols rmap cmap hwf hr hcm hW

/-- Witness for C3 at the scenario tile and slice. -/
theorem claim_C3_witness :
    WF scenarioX ∧ scenarioW.length = scenarioX.ncols * 2 ∧
      dense_perm_spmm_tile scenarioX scenarioW scenarioX.ncols 2 =
        sparse_spmm_tile scenarioX scenarioW scenarioX.ncols 2 :=
  ⟨by decide, by decide,
    (claim_C3_dense_sparse_tile_equivalence scenarioX scenarioW 2
      (by decide) (by decide)).1⟩

/-! ### Counting characterization of `make_2d_tiles` -/

theorem getD_set_self {α : Type} {ts : List α} {k : Nat} (v d : α)
    (hk : k < ts.length) : (ts.set k v).getD k d = v := by
  rw [List.getD_eq_getElem _ _ (by rwa [List.length_set]), List.getElem_set,
    if_pos rfl]

theorem getD_set_ne {α : Type} {ts : List α} {j k : Nat} (v d : α)
    (hjk : j ≠ k) : (ts.set j v).getD k d = ts.getD k d := by
  rcases Nat.lt_or_ge k ts.length with hk | hk
  · rw [List.getD_eq_getElem _ _ (by rwa [List.length_set]),
      List.getD_eq_getElem _ _ hk, List.getElem_set, if_neg hjk]
  · rw [List.getD_eq_getElem?_getD, List.getD_eq_getElem?_getD,
      List.getElem?_eq_none (by rwa [List.length_set]),
      List.getElem?_eq_none hk]

theorem bump_foldl_length {α : Type} (guard : α → Bool) (idx : α → Nat) :
    ∀ (es : List α) (ts : List Tile),
      (es.foldl (fun ts e => if guard e then bumpNnz ts (idx e) else ts)
        ts).length = ts.length := by
  intro es
  induction es with
  | nil => intro ts; rfl
  | cons e es ih =>
    intro ts
    simp only [List.foldl_cons]
    rw [ih]
    by_cases h : guard e
    · rw [if_pos h]
      unfold bumpNnz
      rw [List.length_set]
    · rw [if_neg h]

/-- After the counting loop, a tile's `nnz` has grown by the number of
scanned entries whose guarded index is that tile's. -/
theorem bump_foldl_getD {α : Type} (guard : α → Bool) (idx : α → Nat) :
    ∀ (es : List α) (ts : List Tile) (k : Nat), k < ts.length →
      (es.foldl (fun ts e => if guard e then bumpNnz ts (idx e) else ts)
        ts).getD k default =
        { ts.getD k default with
          nnz := (ts.getD k default).nnz +
            (es.filter (fun e => guard e && (idx e == k))).length } := by
  intro es
  induction es with
  | nil =>
    intro ts k hk
    simp
  | cons e es ih =>
    intro ts k hk
    simp only [List.foldl_cons]
    by_cases hguard : guard e
    · rw [if_pos hguard]
      have hlen : k < (bumpNnz ts (idx e)).length := by
        unfold bumpNnz
        rwa [List.length_set]
      rw [ih (bumpNnz ts (idx e)) k hlen]
      by_cases hidx : idx e = k
      · subst hidx
        have hbump : (bumpNnz ts (idx e)).getD (idx e) default =
            { ts.getD (idx e) default with
              nnz := (ts.getD (idx e) default).nnz + 1 } := by
          unfold bumpNnz
          exact getD_set_self _ _ hk
        rw [hbump, List.filter_cons_of_pos (by simp [hguard])]
        simp only [List.length_cons]
        congr 1
        omega
      · have hbump : (bumpNnz ts (idx e)).getD k default =
            ts.getD k default := by
          unfold bumpNnz
          exact getD_set_ne _ _ hidx
        rw [hbump, List.filter_cons_of_neg (by simp [hidx])]
    · rw [if_neg hguard, ih ts k hk,
        List.filter_cons_of_neg (by simp [hguard])]

theorem le_ceil_mul {n T : Nat} (hT : 0 < T) : n ≤ ((n + T - 1) / T) * T := by
  have h := Nat.div_add_mod (n + T - 1) T
  have hm : (n + T - 1) % T < T := Nat.mod_lt _ hT
  rw [Nat.mul_comm]
  omega

theorem div_lt_numTiles {a n T : Nat} (hT : 0 < T) (ha : a < n) :
    a / T < (n + T - 1) / T := by
  rw [Nat.div_lt_iff_lt_mul hT]
  exact lt_of_lt_of_le ha (le_ceil_mul hT)

/-- An index `i < n` lies in the clipped band of tile row `rb` iff `rb` is
its quotient by the tile size. -/
theorem div_band {i rb n T : Nat} (hT : 0 < T) (hi : i < n) :
    i / T = rb ↔ (rb * T ≤ i ∧ i < min (rb * T + T) n) := by
  constructor
  · intro h
    subst h
    refine ⟨Nat.div_mul_le_self i T, ?_⟩
    rw [Nat.lt_min]
    refine ⟨?_, hi⟩
    have h1 := Nat.div_add_mod i T
    have h2 := Nat.mod_lt i hT
    rw [Nat.mul_comm]
    omega
  · rintro ⟨h1, h2⟩
    rw [Nat.lt_min] at h2
    apply Nat.le_antisymm
    · have hlt : i / T < rb + 1 := by
        rw [Nat.div_lt_iff_lt_mul hT]
        calc i < rb * T + T := h2.1
          _ = (rb + 1) * T := by ring
      omega
    · rw [Nat.le_div_iff_mul_le hT]
      exact h1

theorem csrEntries_bounds {X : CSR} (hwf : WF X) :
    ∀ e ∈ csrEntries X, e.1 < X.nrows ∧ e.2.1 < X.ncols := by
  intro e he
  unfold csrEntries at he
  obtain ⟨i, hi, hmem⟩ := List.mem_flatMap.mp he
  obtain ⟨x, hx, hex⟩ := List.mem_map.mp hmem
  subst hex
  exact ⟨List.mem_range.mp hi,
    hwf.2.2.2.2.2.2.1 _ (List.mem_range.mp hi) x hx⟩

theorem csrEntries_length {X : CSR} (hwf : WF X) :
    (csrEntries X).length = X.nnz := by
  unfold csrEntries
  rw [List.length_flatMap]
  have h1 : (List.map (List.length ∘ fun i => (csrRow X i).map (fun e => (i, e)))
      (List.range X.nrows)) =
      (List.range X.nrows).map (fun i => (csrRow X i).length) := by
    apply List.map_congr_left
    intro i _
    show ((csrRow X i).map _).length = _
    rw [List.length_map]
  rw [h1]
  have h3 : sumLens (rowsOf X) =
      ((List.range X.nrows).map (fun i => (csrRow X i).length)).sum := by
    unfold sumLens rowsOf
    rw [List.map_map]
    rfl
  rw [← h3, wf_sumLens_rowsOf hwf]

theorem make_2d_tiles_length (X : CSR) (T_R T_C : Nat) :
    (make_2d_tiles X T_R T_C).length =
      ((X.nrows + T_R - 1) / T_R) * ((X.ncols + T_C - 1) / T_C) := by
  simp only [make_2d_tiles]
  rw [bump_foldl_length]
  unfold tileGrid
  rw [mkMat_length]

theorem make_2d_tiles_getD (X : CSR) (T_R T_C : Nat) {rb cb : Nat}
    (hrb : rb < (X.nrows + T_R - 1) / T_R)
    (hcb : cb < (X.ncols + T_C - 1) / T_C) :
    (make_2d_tiles X T_R T_C).getD
      (rb * ((X.ncols + T_C - 1) / T_C) + cb) default =
      tileAt X T_R T_C rb cb := by
  simp only [make_2d_tiles]
  have hk : rb * ((X.ncols + T_C - 1) / T_C) + cb <
      (tileGrid X.nrows X.ncols T_R T_C).length := by
    unfold tileGrid
    rw [mkMat_length]
    exact pos_lt_of_row_col hrb hcb
  rw [bump_foldl_getD _ _ _ _ _ hk]
  have hgrid : (tileGrid X.nrows X.ncols T_R T_C).getD
      (rb * ((X.ncols + T_C - 1) / T_C) + cb) default =
      { row_start := rb * T_R, row_end := min (rb * T_R + T_R) X.nrows,
        col_start := cb * T_C, col_end := min (cb * T_C + T_C) X.ncols,
        nnz := 0, is_dense := false } := by
    unfold tileGrid
    exact mkMat_getD _ default hrb hcb
  rw [hgrid]
  unfold tileAt
  simp

theorem map_one_sum {α : Type} (l : List α) :
    (l.map (fun _ => (1 : Nat))).sum = l.length := by
  induction l with
  | nil => rfl
  | cons x xs ih => simp [ih]; omega

theorem list_eq_range_getD {α : Type} (l : List α) (d : α) :
    l = (List.range l.length).map (fun k => l.getD k d) := by
  apply List.ext_getElem
  · rw [List.length_map, List.length_range]
  · intro n h1 h2
    simp only [List.getElem_map, List.getElem_range]
    rw [List.getD_eq_getElem _ _ h1]

theorem pos_decomp {k A B : Nat} (hk : k < A * B) :
    0 < B ∧ k / B < A ∧ k % B < B ∧ k = k / B * B + k % B := by
  have hB : 0 < B := by
    rcases Nat.eq_zero_or_pos B with h | h
    · rw [h, Nat.mul_zero] at hk
      omega
    · exact h
  refine ⟨hB, (Nat.div_lt_iff_lt_mul hB).mpr hk, Nat.mod_lt _ hB, ?_⟩
  rw [Nat.mul_comm]
  exact (Nat.div_add_mod k B).symm

/-! ### Claim C2 -/

/-- C2: for every well-formed CSR `X` and positive tile dimensions, the
tiles of `make_2d_tiles` count every stored nonzero exactly once: the tile
`nnz` values sum to `X.nnz`, and each stored nonzero lies inside the
row/column bounds of exactly one tile. -/
theorem claim_C2_partition_completeness (X : CSR) (T_R T_C : Nat)
    (hwf : WF X) (hTR : 0 < T_R) (hTC : 0 < T_C) :
    ((make_2d_tiles X T_R T_C).map (fun t => t.nnz)).sum = X.nnz ∧
    ∀ e ∈ csrEntries X,
      ((make_2d_tiles X T_R T_C).filter (fun t =>
        decide (t.row_start ≤ e.1) && decide (e.1 < t.row_end) &&
        decide (t.col_start ≤ e.2.1) && decide (e.2.1 < t.col_end))).length
        = 1 := by
  have hlen := make_2d_tiles_length X T_R T_C
  have hkey : ∀ e ∈ csrEntries X,
      e.1 / T_R * ((X.ncols + T_C - 1) / T_C) + e.2.1 / T_C <
        ((X.nrows + T_R - 1) / T_R) * ((X.ncols + T_C - 1) / T_C) := by
    intro e he
    obtain ⟨h1, h2⟩ := csrEntries_bounds hwf e he
    exact pos_lt_of_row_col (div_lt_numTiles hTR h1) (div_lt_numTiles hTC h2)
  have hguard_all : ∀ e ∈ csrEntries X,
      (decide (e.1 / T_R < (X.nrows + T_R - 1) / T_R) &&
       decide (e.2.1 / T_C < (X.ncols + T_C - 1) / T_C)) = true := by
    intro e he
    obtain ⟨h1, h2⟩ := csrEntries_bounds hwf e he
    simp [div_lt_numTiles hTR h1, div_lt_numTiles hTC h2]
  constructor
  · have h0 := list_eq_range_getD (make_2d_tiles X T_R T_C) default
    conv_lhs => rw [h0]
    rw [List.map_map, hlen]
    have hcongr : (List.range
        (((X.nrows + T_R - 1) / T_R) * ((X.ncols + T_C - 1) / T_C))).map
        ((fun t => t.nnz) ∘ fun k => (make_2d_tiles X T_R T_C).getD k default) =
        (List.range
          (((X.nrows + T_R - 1) / T_R) * ((X.ncols + T_C - 1) / T_C))).map
          (fun k => (((csrEntries X).filter (fun e =>
            e.1 / T_R * ((X.ncols + T_C - 1) / T_C) + e.2.1 / T_C == k)).map
            (fun _ => (1 : Nat))).sum) := by
      apply List.map_congr_left
      intro k hk
      obtain ⟨hB, hdivA, hmodB, hdecomp⟩ := pos_decomp (List.mem_range.mp hk)
      show ((make_2d_tiles X T_R T_C).getD k default).nnz = _
      conv_lhs => rw [hdecomp]
      rw [make_2d_tiles_getD X T_R T_C hdivA hmodB]
      unfold tileAt
      rw [← hdecomp]
      rw [List.filter_congr (fun e he => by
        rw [hguard_all e he, Bool.true_and])]
      exact (map_one_sum _).symm
    rw [hcongr,
      sum_partition (csrEntries X)
        (((X.nrows + T_R - 1) / T_R) * ((X.ncols + T_C - 1) / T_C))
        (fun e => e.1 / T_R * ((X.ncols + T_C - 1) / T_C) + e.2.1 / T_C)
        (fun _ => (1 : Nat)) hkey,
      map_one_sum, csrEntries_length hwf]
  · intro e he
    obtain ⟨he1, he2⟩ := csrEntries_bounds hwf e he
    have hrb0 : e.1 / T_R < (X.nrows + T_R - 1) / T_R := div_lt_numTiles hTR he1
    have hcb0 : e.2.1 / T_C < (X.ncols + T_C - 1) / T_C := div_lt_numTiles hTC he2
    have hk0 := hkey e he
    have h0 := list_eq_range_getD (make_2d_tiles X T_R T_C) default
    conv_lhs => rw [h0]
    rw [List.filter_map, List.length_map, hlen]
    have hfil : (List.range
        (((X.nrows + T_R - 1) / T_R) * ((X.ncols + T_C - 1) / T_C))).filter
        ((fun t : Tile =>
          decide (t.row_start ≤ e.1) && decide (e.1 < t.row_end) &&
          decide (t.col_start ≤ e.2.1) && decide (e.2.1 < t.col_end)) ∘
          (fun k => (make_2d_tiles X T_R T_C).getD k default)) =
        [e.1 / T_R * ((X.ncols + T_C - 1) / T_C) + e.2.1 / T_C] := by
      apply filter_unique (List.nodup_range _) _ (List.mem_range.mpr hk0)
      · show ((fun t : Tile => _) ∘ _) _ = true
        simp only [Function.comp]
        simp only [make_2d_tiles_getD X T_R T_C hrb0 hcb0]
        unfold tileAt
        have hband1 := (div_band hTR he1).mp rfl
        have hband2 := (div_band hTC he2).mp rfl
        simp only [Bool.and_eq_true, decide_eq_true_eq]
        rw [Nat.lt_min] at hband1 hband2
        exact ⟨⟨⟨hband1.1, by rw [Nat.lt_min]; exact hband1.2⟩, hband2.1⟩,
          by rw [Nat.lt_min]; exact hband2.2⟩
      · intro k hkr hpk
        have hkmem := List.mem_range.mp hkr
        obtain ⟨hB, hdivA, hmodB, hdecomp⟩ := pos_decomp hkmem
        rw [hdecomp] at hpk ⊢
        simp only [Function.comp] at hpk
        simp only [make_2d_tiles_getD X T_R T_C hdivA hmodB] at hpk
        unfold tileAt at hpk
        simp only [Bool.and_eq_true, decide_eq_true_eq] at hpk
        obtain ⟨⟨⟨hp1, hp2⟩, hp3⟩, hp4⟩ := hpk
        have hr : e.1 / T_R = k / ((X.ncols + T_C - 1) / T_C) :=
          (div_band hTR he1).mpr ⟨hp1, hp2⟩
        have hc : e.2.1 / T_C = k % ((X.ncols + T_C - 1) / T_C) :=
          (div_band hTC he2).mpr ⟨hp3, hp4⟩
        rw [hr, hc]
    rw [hfil]
    rfl

/-- Witness for C2 at the scenario matrix tiled 2×2. -/
theorem claim_C2_witness :
    WF scenarioX ∧ 0 < 2 ∧
      ((make_2d_tiles scenarioX 2 2).map (fun t => t.nnz)).sum =
        scenarioX.nnz ∧
      ∀ e ∈ csrEntries scenarioX,
        ((make_2d_tiles scenarioX 2 2).filter (fun t =>
          decide (t.row_start ≤ e.1) && decide (e.1 < t.row_end) &&
          decide (t.col_start ≤ e.2.1) && decide (e.2.1 < t.col_end))).length
          = 1 :=
  ⟨by decide, by decide,
    (claim_C2_partition_completeness scenarioX 2 2 (by decide)
      (by decide) (by decide)).1,
    (claim_C2_partition_completeness scenarioX 2 2 (by decide)
      (by decide) (by decide)).2⟩

/-! ### Per-tile value of the driver's dense/sparse dispatch -/

/-- Whatever the routing decides, the tile's partial result is the
`(row_end-row_start) × W_cols` block summing, for each tile row, the
entries of the corresponding `X` row whose column lies in the tile's
column band, against the matching rows of `W`. -/
theorem tile_step_value (X : CSR) (W : List ℤ) (W_rows W_cols : Nat)
    (t : Tile) (hwf : WF X) (hre : t.row_end ≤ X.nrows)
    (hce : t.col_end ≤ X.ncols) (hdim : X.ncols = W_rows) :
    (if routesDense t then
        dense_perm_spmm_tile (extract_tile_csr X t)
          (extract_tile_W W W_rows W_cols t) (t.col_end - t.col_start) W_cols
      else
        sparse_spmm_tile (extract_tile_csr X t)
          (extract_tile_W W W_rows W_cols t) (t.col_end - t.col_start) W_cols) =
      .ok (mkMat (t.row_end - t.row_start) W_cols (fun i j =>
        (((csrRow X (t.row_start + i)).filter
          (fun e => t.col_start ≤ e.1 && e.1 < t.col_end)).map
          (fun e => e.2 * W.getD (e.1 * W_cols + j) 0)).sum)) := by
  obtain ⟨hnr, hnc, hrowt, hwft⟩ := extract_tile_csr_spec hwf hre
  have hWlen : (extract_tile_W W W_rows W_cols t).length =
      (extract_tile_csr X t).ncols * W_cols := by
    unfold extract_tile_W
    rw [mkMat_length, hnc]
  have hsp : sparse_spmm_tile (extract_tile_csr X t)
      (extract_tile_W W W_rows W_cols t) (t.col_end - t.col_start) W_cols =
      .ok (mkMat (t.row_end - t.row_start) W_cols (fun i j =>
        (((csrRow X (t.row_start + i)).filter
          (fun e => t.col_start ≤ e.1 && e.1 < t.col_end)).map
          (fun e => e.2 * W.getD (e.1 * W_cols + j) 0)).sum)) := by
    unfold sparse_spmm_tile
    rw [spmm_baseline_ok hnc]
    congr 1
    rw [hnr]
    apply mkMat_congr
    intro i hi j hj
    rw [hrowt i hi, List.map_map]
    congr 1
    apply List.map_congr_left
    intro e he
    simp only [Function.comp]
    have hcond := List.of_mem_filter he
    simp only [Bool.and_eq_true, decide_eq_true_eq] at hcond
    show e.2 * (extract_tile_W W W_rows W_cols t).getD
      ((e.1 - t.col_start) * W_cols + j) 0 = e.2 * W.getD (e.1 * W_cols + j) 0
    congr 1
    unfold extract_tile_W
    rw [mkMat_getD _ 0 (by omega) hj]
    have harith : t.col_start + (e.1 - t.col_start) = e.1 := by omega
    rw [harith, if_pos (by omega)]
  by_cases hroute : routesDense t
  · rw [if_pos hroute]
    have hden : dense_perm_spmm_tile (extract_tile_csr X t)
        (extract_tile_W W W_rows W_cols t) (t.col_end - t.col_start) W_cols =
        sparse_spmm_tile (extract_tile_csr X t)
          (extract_tile_W W W_rows W_cols t) (t.col_end - t.col_start)
          W_cols := by
      rw [← hnc]
      exact dense_perm_spmm_tile_eq _ _ _ hwft hWlen
    rw [hden]
    exact hsp
  · rw [if_neg hroute]
    exact hsp

/-! ### Accumulation over the tile list -/

theorem foldlM_ok {α : Type} (step : List ℤ → α → Except String (List ℤ))
    (g : List ℤ → α → List ℤ) :
    ∀ (l : List α), (∀ a ∈ l, ∀ Y, step Y a = .ok (g Y a)) →
      ∀ init, l.foldlM step init = .ok (l.foldl g init) := by
  intro l
  induction l with
  | nil => intro _ init; rfl
  | cons a as ih =>
    intro h init
    rw [List.foldlM_cons, h a (List.mem_cons_self _ _) init]
    show as.foldlM step (g init a) = _
    exact ih (fun b hb => h b (List.mem_cons_of_mem _ hb)) (g init a)

theorem addTileResult_length (Y : List ℤ) (N : Nat) (t : Tile) (v : List ℤ) :
    (addTileResult Y N t v).length = Y.length := by
  unfold addTileResult
  rw [scatterAdd_length]

theorem addTileResult_getD (Y : List ℤ) (N : Nat) (t : Tile) (v : List ℤ)
    {p : Nat} (hp : p < Y.length) :
    (addTileResult Y N t v).getD p 0 = Y.getD p 0 + tileContrib N t v p := by
  unfold addTileResult tileContrib
  exact scatterAdd_getD Y _ p hp

theorem foldl_addTile_length (N : Nat) (tileOf : Nat → Tile)
    (valOf : Nat → List ℤ) :
    ∀ (ks : List Nat) (Y : List ℤ),
      (ks.foldl (fun Y k => addTileResult Y N (tileOf k) (valOf k)) Y).length =
        Y.length := by
  intro ks
  induction ks with
  | nil => intro Y; rfl
  | cons k ks ih =>
    intro Y
    rw [List.foldl_cons, ih, addTileResult_length]

theorem foldl_addTile_getD (N : Nat) (tileOf : Nat → Tile)
    (valOf : Nat → List ℤ) :
    ∀ (ks : List Nat) (Y : List ℤ) (p : Nat), p < Y.length →
      (ks.foldl (fun Y k => addTileResult Y N (tileOf k) (valOf k)) Y).getD p 0 =
        Y.getD p 0 +
          (ks.map (fun k => tileContrib N (tileOf k) (valOf k) p)).sum := by
  intro ks
  induction ks with
  | nil => intro Y p hp; simp
  | cons k ks ih =>
    intro Y p hp
    rw [List.foldl_cons,
      ih (addTileResult Y N (tileOf k) (valOf k)) p
        (by rwa [addTileResult_length]),
      addTileResult_getD _ _ _ _ hp, List.map_cons, List.sum_cons]
    ring

/-- The contribution of a tile at flat position `g*N + jp`: its own value
at local row `g - row_start` when `g` lies in the tile's row band, `0`
otherwise. -/
theorem tileContrib_eq (N : Nat) (t : Tile) (v : List ℤ) {g jp : Nat}
    (hjp : jp < N) :
    tileContrib N t v (g * N + jp) =
      if t.row_start ≤ g ∧ g < t.row_end then
        v.getD ((g - t.row_start) * N + jp) 0
      else 0 := by
  unfold tileContrib mkMat
  rw [filter_flatMap]
  by_cases hband : t.row_start ≤ g ∧ g < t.row_end
  · rw [if_pos hband]
    have hflat : (List.range (t.row_end - t.row_start)).flatMap (fun i =>
        ((List.range N).map (fun j =>
          ((t.row_start + i) * N + j, v.getD (i * N + j) 0))).filter
          (fun w => w.1 == g * N + jp)) =
        [(g * N + jp, v.getD ((g - t.row_start) * N + jp) 0)] := by
      have hinner : ∀ i ∈ List.range (t.row_end - t.row_start),
          ((List.range N).map (fun j =>
            ((t.row_start + i) * N + j, v.getD (i * N + j) 0))).filter
            (fun w => w.1 == g * N + jp) =
          (if i = g - t.row_start then
            [(g * N + jp, v.getD ((g - t.row_start) * N + jp) 0)]
          else []) := by
        intro i hi
        have hii := List.mem_range.mp hi
        rw [List.filter_map]
        by_cases hcase : i = g - t.row_start
        · subst hcase
          rw [if_pos rfl]
          have hfil : (List.range N).filter
              ((fun w : Nat × ℤ => w.1 == g * N + jp) ∘ (fun j =>
                ((t.row_start + (g - t.row_start)) * N + j,
                  v.getD ((g - t.row_start) * N + j) 0))) = [jp] := by
            apply filter_unique (List.nodup_range _) jp (List.mem_range.mpr hjp)
            · simp only [Function.comp, beq_iff_eq]
              have : t.row_start + (g - t.row_start) = g := by omega
              rw [this]
            · intro b hb hpb
              simp only [Function.comp, beq_iff_eq] at hpb
              have : t.row_start + (g - t.row_start) = g := by omega
              rw [this] at hpb
              exact (row_col_inj (List.mem_range.mp hb) hjp hpb).2
          rw [hfil]
          simp only [List.map_cons, List.map_nil]
          have : t.row_start + (g - t.row_start) = g := by omega
          rw [this]
        · rw [if_neg hcase]
          have hfil : (List.range N).filter
              ((fun w : Nat × ℤ => w.1 == g * N + jp) ∘ (fun j =>
                ((t.row_start + i) * N + j, v.getD (i * N + j) 0))) = [] := by
            rw [List.filter_eq_nil_iff]
            intro j hjm
            simp only [Function.comp, beq_iff_eq]
            intro hpb
            have h1 := (row_col_inj (List.mem_range.mp hjm) hjp hpb).1
            omega
          rw [hfil]
          rfl
      calc (List.range (t.row_end - t.row_start)).flatMap (fun i =>
            ((List.range N).map (fun j =>
              ((t.row_start + i) * N + j, v.getD (i * N + j) 0))).filter
              (fun w => w.1 == g * N + jp))
          = (List.range (t.row_end - t.row_start)).flatMap (fun i =>
              (if i = g - t.row_start then
                [(g * N + jp, v.getD ((g - t.row_start) * N + jp) 0)]
              else [])) := List.flatMap_congr hinner
        _ = [(g * N + jp, v.getD ((g - t.row_start) * N + jp) 0)] := by
            rw [flatMap_single (List.nodup_range _) (g - t.row_start)
              (List.mem_range.mpr (by omega)) _
              (fun b _ hb => by rw [if_neg hb]), if_pos rfl]
    rw [hflat]
    simp
  · rw [if_neg hband]
    have hflat : (List.range (t.row_end - t.row_start)).flatMap (fun i =>
        ((List.range N).map (fun j =>
          ((t.row_start + i) * N + j, v.getD (i * N + j) 0))).filter
          (fun w => w.1 == g * N + jp)) = [] := by
      rw [List.flatMap_eq_nil_iff]
      intro i hi
      have hii := List.mem_range.mp hi
      rw [List.filter_map, List.map_eq_nil_iff, List.filter_eq_nil_iff]
      intro j hjm
      simp only [Function.comp, beq_iff_eq]
      intro hpb
      have h1 := (row_col_inj (List.mem_range.mp hjm) hjp hpb).1
      omega
    rw [hflat]
    rfl

theorem sum_flatMap {α M : Type} [AddCommMonoid M] (l : List α)
    (f : α → List M) :
    (l.flatMap f).sum = (l.map (fun a => (f a).sum)).sum := by
  induction l with
  | nil => rfl
  | cons x xs ih =>
    rw [List.flatMap_cons, List.sum_append, List.map_cons, List.sum_cons, ih]

/-- Reindexing a sum over `[0, A*B)` as a double sum over the quotient and
remainder by `B`. -/
theorem sum_range_mul {M : Type} [AddCommMonoid M] (A B : Nat)
    (h : Nat → Nat → M) :
    ((List.range (A * B)).map (fun k => h (k / B) (k % B))).sum =
      ((List.range A).map (fun rb =>
        ((List.range B).map (fun cb => h rb cb)).sum)).sum := by
  have hlist : (List.range (A * B)).map (fun k => h (k / B) (k % B)) =
      mkMat A B h := by
    apply List.ext_getElem
    · rw [List.length_map, List.length_range, mkMat_length]
    · intro n h1 h2
      have hn : n < A * B := by
        rw [List.length_map, List.length_range] at h1
        exact h1
      obtain ⟨hB, hdiv, hmod, hdecomp⟩ := pos_decomp hn
      have hgd : (mkMat A B h).getD n (h (n / B) (n % B)) = h (n / B) (n % B) := by
        conv_lhs => rw [hdecomp]
        exact mkMat_getD h _ hdiv hmod
      simp only [List.getElem_map, List.getElem_range]
      rw [← hgd, List.getD_eq_getElem _ _ h2]
  rw [hlist]
  unfold mkMat
  rw [sum_flatMap]

/-- A single grid tile's contribution at output position `(g, jp)`: the
tile's column-band part of row `g`'s dot product when `g` lies in the
tile's row band, `0` otherwise. -/
theorem tileContrib_tileAt (X : CSR) (W : List ℤ) (W_cols T_R T_C : Nat)
    (rb cb : Nat) (hTR : 0 < T_R) {g jp : Nat} (hg : g < X.nrows)
    (hjp : jp < W_cols) :
    tileContrib W_cols (tileAt X T_R T_C rb cb)
      (tileVal X W W_cols (tileAt X T_R T_C rb cb)) (g * W_cols + jp) =
    (if g / T_R = rb then rowBandSum X W W_cols T_C g jp cb else 0) := by
  rw [tileContrib_eq _ _ _ hjp]
  simp only [tileAt, tileVal, rowBandSum]
  by_cases hband : g / T_R = rb
  · have hb := (div_band hTR hg).mp hband
    rw [if_pos hb, if_pos hband]
    rw [mkMat_getD _ 0 (by omega) hjp]
    have harith : rb * T_R + (g - rb * T_R) = g := by omega
    simp only [harith]
  · have hnb : ¬(rb * T_R ≤ g ∧ g < min (rb * T_R + T_R) X.nrows) :=
      fun hb => hband ((div_band hTR hg).mpr hb)
    rw [if_neg hnb, if_neg hband]

/-- Summed over the whole tile grid, the contributions at output position
`(g, jp)` reassemble row `g`'s full dot product with column `jp` of `W`. -/
theorem sum_tileContrib (X : CSR) (W : List ℤ) (W_cols T_R T_C : Nat)
    (hwf : WF X) (hTR : 0 < T_R) (hTC : 0 < T_C) {g jp : Nat}
    (hg : g < X.nrows) (hjp : jp < W_cols) :
    ((List.range ((make_2d_tiles X T_R T_C).length)).map (fun k =>
      tileContrib W_cols ((make_2d_tiles X T_R T_C).getD k default)
        (tileVal X W W_cols ((make_2d_tiles X T_R T_C).getD k default))
        (g * W_cols + jp))).sum =
      ((csrRow X g).map (fun e => e.2 * W.getD (e.1 * W_cols + jp) 0)).sum := by
  have hcol : ∀ e ∈ csrRow X g, e.1 < X.ncols := by
    intro e he
    have hmem : (g, e) ∈ csrEntries X := by
      unfold csrEntries
      exact List.mem_flatMap.mpr ⟨g, List.mem_range.mpr hg,
        List.mem_map.mpr ⟨e, he, rfl⟩⟩
    exact (csrEntries_bounds hwf _ hmem).2
  rw [make_2d_tiles_length]
  have hcongr : ∀ k ∈ List.range (((X.nrows + T_R - 1) / T_R) *
      ((X.ncols + T_C - 1) / T_C)),
      tileContrib W_cols ((make_2d_tiles X T_R T_C).getD k default)
        (tileVal X W W_cols ((make_2d_tiles X T_R T_C).getD k default))
        (g * W_cols + jp) =
      (fun rb cb => if g / T_R = rb then rowBandSum X W W_cols T_C g jp cb
        else 0) (k / ((X.ncols + T_C - 1) / T_C))
        (k % ((X.ncols + T_C - 1) / T_C)) := by
    intro k hk
    have hkk := List.mem_range.mp hk
    obtain ⟨hB, hdiv, hmod, hdecomp⟩ := pos_decomp hkk
    have ht : (make_2d_tiles X T_R T_C).getD k default =
        tileAt X T_R T_C (k / ((X.ncols + T_C - 1) / T_C))
          (k % ((X.ncols + T_C - 1) / T_C)) := by
      conv_lhs => rw [hdecomp]
      exact make_2d_tiles_getD X T_R T_C hdiv hmod
    rw [ht]
    exact tileContrib_tileAt X W W_cols T_R T_C _ _ hTR hg hjp
  rw [List.map_congr_left hcongr,
    sum_range_mul ((X.nrows + T_R - 1) / T_R) ((X.ncols + T_C - 1) / T_C)
      (fun rb cb => if g / T_R = rb then rowBandSum X W W_cols T_C g jp cb
        else 0)]
  have houter : ∀ rb ∈ List.range ((X.nrows + T_R - 1) / T_R),
      ((List.range ((X.ncols + T_C - 1) / T_C)).map (fun cb =>
        (fun rb cb => if g / T_R = rb then rowBandSum X W W_cols T_C g jp cb
          else 0) rb cb)).sum =
      (if g / T_R = rb then
        ((List.range ((X.ncols + T_C - 1) / T_C)).map (fun cb =>
          rowBandSum X W W_cols T_C g jp cb)).sum
      else 0) := by
    intro rb _
    by_cases hband : g / T_R = rb
    · rw [if_pos hband]
      congr 1
      apply List.map_congr_left
      intro cb _
      simp only []
      rw [if_pos hband]
    · rw [if_neg hband]
      have hz : ∀ cb ∈ List.range ((X.ncols + T_C - 1) / T_C),
          (fun rb cb => if g / T_R = rb then rowBandSum X W W_cols T_C g jp cb
            else 0) rb cb = 0 := by
        intro cb _
        simp only []
        rw [if_neg hband]
      rw [List.map_congr_left hz]
      simp
  rw [List.map_congr_left houter, sum_map_range, Finset.sum_ite_eq,
    if_pos (Finset.mem_range.mpr (div_lt_numTiles hTR hg))]
  have hGrow : ∀ cb ∈ List.range ((X.ncols + T_C - 1) / T_C),
      rowBandSum X W W_cols T_C g jp cb =
      (((csrRow X g).filter (fun e => e.1 / T_C == cb)).map
        (fun e => e.2 * W.getD (e.1 * W_cols + jp) 0)).sum := by
    intro cb _
    unfold rowBandSum
    congr 2
    apply List.filter_congr
    intro e he
    rw [Bool.eq_iff_iff]
    simp only [Bool.and_eq_true, decide_eq_true_eq, beq_iff_eq]
    exact (div_band hTC (hcol e he)).symm
  rw [List.map_congr_left hGrow]
  exact sum_partition (csrRow X g) ((X.ncols + T_C - 1) / T_C)
    (fun e => e.1 / T_C) (fun e => e.2 * W.getD (e.1 * W_cols + jp) 0)
    (fun e he => div_lt_numTiles hTC (hcol e he))

/-- Per-index step of the driver's fold: at an in-range tile index the
dispatched pipeline succeeds and the step scatter-adds the tile's value
block onto the running output. -/
theorem step_eval (X : CSR) (W : List ℤ) (W_rows W_cols T_R T_C : Nat)
    (hwf : WF X) (hdim : X.ncols = W_rows) (k : Nat)
    (hk : k < (make_2d_tiles X T_R T_C).length) (Y : List ℤ) :
    (if routesDense ((make_2d_tiles X T_R T_C).getD k default) = true then
        dense_perm_spmm_tile
            (extract_tile_csr X ((make_2d_tiles X T_R T_C).getD k default))
            (extract_tile_W W W_rows W_cols
              ((make_2d_tiles X T_R T_C).getD k default))
            (((make_2d_tiles X T_R T_C).getD k default).col_end -
              ((make_2d_tiles X T_R T_C).getD k default).col_start) W_cols >>=
          fun Y_tile =>
            pure (addTileResult Y W_cols
              ((make_2d_tiles X T_R T_C).getD k default) Y_tile)
      else
        sparse_spmm_tile
            (extract_tile_csr X ((make_2d_tiles X T_R T_C).getD k default))
            (extract_tile_W W W_rows W_cols
              ((make_2d_tiles X T_R T_C).getD k default))
            (((make_2d_tiles X T_R T_C).getD k default).col_end -
              ((make_2d_tiles X T_R T_C).getD k default).col_start) W_cols >>=
          fun Y_tile =>
            pure (addTileResult Y W_cols
              ((make_2d_tiles X T_R T_C).getD k default) Y_tile)) =
      .ok (addTileResult Y W_cols ((make_2d_tiles X T_R T_C).getD k default)
        (tileVal X W W_cols ((make_2d_tiles X T_R T_C).getD k default))) := by
  have hkk := hk
  rw [make_2d_tiles_length] at hkk
  obtain ⟨hB, hdiv, hmod, hdecomp⟩ := pos_decomp hkk
  have ht : ((make_2d_tiles X T_R T_C).getD k default).row_end ≤ X.nrows ∧
      ((make_2d_tiles X T_R T_C).getD k default).col_end ≤ X.ncols := by
    have heq : (make_2d_tiles X T_R T_C).getD k default =
        tileAt X T_R T_C (k / ((X.ncols + T_C - 1) / T_C))
          (k % ((X.ncols + T_C - 1) / T_C)) := by
      conv_lhs => rw [hdecomp]
      exact make_2d_tiles_getD X T_R T_C hdiv hmod
    rw [heq]
    exact ⟨min_le_right _ _, min_le_right _ _⟩
  have hval := tile_step_value X W W_rows W_cols
    ((make_2d_tiles X T_R T_C).getD k default) hwf ht.1 ht.2 hdim
  by_cases hroute :
      routesDense ((make_2d_tiles X T_R T_C).getD k default) = true
  · rw [if_pos hroute] at hval
    rw [if_pos hroute, hval]
    rfl
  · rw [if_neg hroute] at hval
    rw [if_neg hroute, hval]
    rfl

/-- C1: for every well-formed CSR matrix `X`, dense `W` with
`W_rows = X.ncols`, and the tile grid produced by `make_2d_tiles` at any
positive tile dimensions, `process_tiles_with_predictor` returns exactly
`spmm_baseline X W W_rows W_cols` (the embedding computes in exact
arithmetic, so the float tolerance of the claim is met at zero error). -/
theorem claim_C1_tiling_equivalence (X : CSR) (W : List ℤ)
    (W_rows W_cols T_R T_C : Nat) (hwf : WF X) (hTR : 0 < T_R)
    (hTC : 0 < T_C) (hdim : X.ncols = W_rows) :
    process_tiles_with_predictor X W W_rows W_cols (make_2d_tiles X T_R T_C) =
      spmm_baseline X W W_rows W_cols := by
  simp only [process_tiles_with_predictor]
  rw [list_eq_range_getD (make_2d_tiles X T_R T_C) default, List.foldlM_map]
  refine Eq.trans (foldlM_ok _ (fun Y k =>
    addTileResult Y W_cols ((make_2d_tiles X T_R T_C).getD k default)
      (tileVal X W W_cols ((make_2d_tiles X T_R T_C).getD k default))) _
    (fun k hk Y =>
      step_eval X W W_rows W_cols T_R T_C hwf hdim k (List.mem_range.mp hk) Y)
    _) ?rest
  case rest =>
    rw [spmm_baseline_ok hdim]
    congr 1
    apply List.ext_getElem
    · rw [foldl_addTile_length, List.length_replicate, mkMat_length]
    · intro p h1 h2
      have hplen : p < X.nrows * W_cols := by
        rw [mkMat_length] at h2
        exact h2
      obtain ⟨hN, hgdiv, hjmod, hpdecomp⟩ := pos_decomp hplen
      rw [← List.getD_eq_getElem _ (0 : ℤ) h1,
        ← List.getD_eq_getElem _ (0 : ℤ) h2]
      have hfold := foldl_addTile_getD W_cols
        (fun k => (make_2d_tiles X T_R T_C).getD k default)
        (fun k => tileVal X W W_cols ((make_2d_tiles X T_R T_C).getD k default))
        (List.range (make_2d_tiles X T_R T_C).length)
        (List.replicate (X.nrows * W_cols) (0 : ℤ)) p
        (by rw [List.length_replicate]; exact hplen)
      simp only [] at hfold
      rw [hfold]
      have hrep : (List.replicate (X.nrows * W_cols) (0 : ℤ)).getD p 0 = 0 := by
        simp
      rw [hrep, zero_add]
      have hsum := sum_tileContrib X W W_cols T_R T_C hwf hTR hTC hgdiv hjmod
      conv_lhs => rw [hpdecomp]
      rw [hsum]
      conv_rhs => rw [hpdecomp]
      rw [mkMat_getD _ (0 : ℤ) hgdiv hjmod]

/-- Witness for C1 at the scenario matrix, the scenario weights (4×2) and
a 2×2 tile grid. -/
theorem claim_C1_witness :
    WF scenarioX ∧ 0 < 2 ∧ scenarioX.ncols = 4 ∧
      process_tiles_with_predictor scenarioX scenarioW 4 2
        (make_2d_tiles scenarioX 2 2) = spmm_baseline scenarioX scenarioW 4 2 :=
  ⟨by decide, by decide, by decide,
    claim_C1_tiling_equivalence scenarioX scenarioW 4 2 2 2
      (by decide) (by decide) (by decide) (by decide)⟩
